import Mathlib

/-!
# noverify: language-server walkers and the linter pipeline

A shallow embedding of `src/langsrv/defs.go`, `src/langsrv/hover.go` and
`src/linter/parser.go`.

* Go `int` offsets are `Int`; the code only compares them.
* A Go computation that may panic returns an `Outcome`; `recover` is a
  match on it.
* A nil pointer, slice or error is `none` or the empty list.
* The functions of `meta`, `solver`, `state` and of the linter's walkers
  that these files call but do not define are fields of an environment
  record (`Env`, `LintEnv`), so the theorems hold for all their behaviours.
* The php-parser's nodes are the inductive type `Node`; its `Walk` is the
  usual one: `EnterNode`, the children in order, `LeaveNode`.
-/

namespace Noverify

/-! ## Go control flow -/

/-- Result of running Go code: a normal return, or a panic carrying the
text `fmt.Sprint` gives for the panic value. -/
inductive Outcome (α : Type) where
  | ret (a : α)
  | panicked (r : String)
deriving DecidableEq, Repr

/-- Sequencing of Go statements: a panic in the first skips the second. -/
def Outcome.andThen {α β : Type} (x : Outcome α) (f : α → Outcome β) : Outcome β :=
  match x with
  | .ret a => f a
  | .panicked r => .panicked r

/-! ## php-parser nodes -/

/-- The `position.Position` of a node: the offsets of its first and last byte. -/
structure Position where
  StartPos : Int
  EndPos : Int
deriving DecidableEq, Repr

/-- The node kinds the two walkers distinguish, with the child fields the
php-parser gives them; every other kind is `Other` with its children in
walk order. -/
inductive Node where
  | Identifier (pos : Position) (Value : String)
  | NamePart (pos : Position) (Value : String)
  | Name (pos : Position) (Parts : List Node)
  | FullyQualified (pos : Position) (Parts : List Node)
  | Variable (pos : Position) (VarName : Node)
  | FunctionCall (pos : Position) (Function : Node) (ArgumentList : Node)
  | StaticCall (pos : Position) (Class : Node) (Call : Node) (ArgumentList : Node)
  | MethodCall (pos : Position) (Variable : Node) (Method : Node) (ArgumentList : Node)
  | PropertyFetch (pos : Position) (Variable : Node) (Property : Node)
  | ConstFetch (pos : Position) (Constant : Node)
  | ClassConstFetch (pos : Position) (Class : Node) (ConstantName : Node)
  | Other (kind : String) (pos : Position) (children : List Node)
deriving Repr

/-- The method `GetPosition` of `node.Node`. -/
def Node.GetPosition : Node → Position
  | .Identifier pos _ => pos
  | .NamePart pos _ => pos
  | .Name pos _ => pos
  | .FullyQualified pos _ => pos
  | .Variable pos _ => pos
  | .FunctionCall pos _ _ => pos
  | .StaticCall pos _ _ _ => pos
  | .MethodCall pos _ _ _ => pos
  | .PropertyFetch pos _ _ => pos
  | .ConstFetch pos _ => pos
  | .ClassConstFetch pos _ _ => pos
  | .Other _ pos _ => pos

/-- The child nodes of a node, in the order `Walk` visits them. -/
def Node.children : Node → List Node
  | .Identifier _ _ => []
  | .NamePart _ _ => []
  | .Name _ parts => parts
  | .FullyQualified _ parts => parts
  | .Variable _ varName => [varName]
  | .FunctionCall _ function argumentList => [function, argumentList]
  | .StaticCall _ cls call argumentList => [cls, call, argumentList]
  | .MethodCall _ receiver method argumentList => [receiver, method, argumentList]
  | .PropertyFetch _ receiver property => [receiver, property]
  | .ConstFetch _ constant => [constant]
  | .ClassConstFetch _ cls constantName => [cls, constantName]
  | .Other _ _ cs => cs

/-! ## meta and vscode records -/

/-- The `meta.ElementPosition` of a declaration: its file and its 1-based
line (an `int32` in Go, widened to `int` before any arithmetic). -/
structure ElementPosition where
  Filename : String
  Line : Int
deriving DecidableEq, Repr

/-- The part of `meta.FuncInfo` the walkers read. -/
structure FuncInfo where
  Pos : ElementPosition
deriving DecidableEq, Repr

/-- The part of `meta.PropertyInfo` the walkers read. -/
structure PropertyInfo where
  Pos : ElementPosition
deriving DecidableEq, Repr

/-- The part of `meta.ConstantInfo` the walkers read. -/
structure ConstantInfo where
  Pos : ElementPosition
deriving DecidableEq, Repr

/-- The part of `meta.ClassInfo` the walkers read. -/
structure ClassInfo where
  Pos : ElementPosition
deriving DecidableEq, Repr

/-- Modelled from the spec: `meta.ClassParseState` is declared outside the
embedded files. The spec gives it a namespace, a stack of enclosing class
names (innermost last) and an alias table. -/
structure ClassParseState where
  Namespace : String
  Classes : List String
  Uses : List (String × String)
deriving DecidableEq, Repr

/-- Modelled from the spec: `meta.TypesMap` is declared outside the embedded
files. A TypeSet is a collection of type names without repetition; `keys`
lists them in the order `Iterate` visits them. -/
structure TypesMap where
  keys : List String
  nodup : keys.Nodup

/-- Modelled from the spec: `meta.NewTypesMap` is declared outside the
embedded files. It builds the TypeSet of the type names written in its
argument, separated by `|`, as its calls `NewTypesMap("int")` and
`NewTypesMap("string[]")` in `AnalyzeFileRootLevel` use it. -/
def NewTypesMap (str : String) : TypesMap :=
  ⟨((str.toList.splitOn '|').map String.mk).dedup, List.nodup_dedup _⟩

/-- The method `Iterate` of `meta.TypesMap`: the callback runs once on every
type name; the callback of the walkers updates the walker. -/
def TypesMap.Iterate {σ : Type} (m : TypesMap) (cb : σ → String → σ) (s : σ) : σ :=
  m.keys.foldl cb s

/-- Modelled from the spec: `meta.Scope` is declared outside the embedded
files. It maps a variable name to its TypeSet and a definite-assignment flag. -/
structure Scope where
  vars : List (String × List String × Bool)
deriving DecidableEq, Repr

namespace vscode

/-- The `vscode.Position` of the language-server protocol. -/
structure Position where
  Line : Int := 0
  Character : Int := 0
deriving DecidableEq, Repr

/-- The `vscode.Range` of the language-server protocol. -/
structure Range where
  Start : Position := {}
  End : Position := {}
deriving DecidableEq, Repr

/-- The `vscode.Location` of the language-server protocol. -/
structure Location where
  URI : String
  Range : Range
deriving DecidableEq, Repr

end vscode

/-! ## The collaborators of the walkers -/

/-- The functions of `state`, `meta` and `solver` that the walkers call.
They are not part of the embedded files, so they are left arbitrary.
`ExprType` may panic; the lookups report absence by `none`. -/
structure Env where
  stateEnterNode : ClassParseState → Node → ClassParseState
  stateLeaveNode : ClassParseState → Node → ClassParseState
  NameToString : Node → String
  FullyQualifiedToString : Node → String
  GetFunction : String → Option FuncInfo
  GetClassOrTrait : String → Option ClassInfo
  GetClassName : ClassParseState → Node → Option String
  GetConstant : ClassParseState → Node → Option ConstantInfo
  FindMethod : String → String → Option FuncInfo
  FindProperty : String → String → Option PropertyInfo
  FindConstant : String → String → Option ConstantInfo
  ExprType : Scope → ClassParseState → Node → Outcome TypesMap

/-! ## src/langsrv/defs.go -/

/-- The walker of a go-to-definition query. -/
structure definitionWalker where
  st : ClassParseState
  position : Int
  scopes : Node → Option Scope
  result : List vscode.Location
  foundScopes : List Scope

/-- The function `safeExprType`: `solver.ExprType` behind a deferred
`recover` that replaces the result by `NewTypesMap("Panic: " + r)`. -/
def safeExprType (env : Env) (sc : Scope) (cs : ClassParseState) (n : Node) : Outcome TypesMap :=
  match env.ExprType sc cs n with
  | .ret res => .ret res
  | .panicked r => .ret (NewTypesMap ("Panic: " ++ r))

/-- The `vscode.Location` literal every case of `EnterNode` appends. -/
def locationOf (Pos : ElementPosition) : vscode.Location :=
  { URI := "file://" ++ Pos.Filename,
    Range := { Start := { Line := Pos.Line - 1 }, End := { Line := Pos.Line - 1 } } }

/-- The test `d.position > pos.EndPos || d.position < pos.StartPos`. -/
def outside (position : Int) (pos : Position) : Bool :=
  decide (position > pos.EndPos) || decide (position < pos.StartPos)

/-- The first statements of `EnterNode`: the scope recorded for the node,
if there is one, is pushed on `foundScopes`. -/
def definitionWalker.pushScope (d : definitionWalker) (n : Node) : definitionWalker :=
  match d.scopes n with
  | some sc => { d with foundScopes := d.foundScopes ++ [sc] }
  | none => d

/-- The method `EnterNode` of `definitionWalker`: the walker after the call
and the returned flag. -/
def definitionWalker.EnterNode (env : Env) (d0 : definitionWalker) (n : Node) :
    Outcome (definitionWalker × Bool) :=
  let d1 : definitionWalker := d0.pushScope n
  let d : definitionWalker := { d1 with st := env.stateEnterNode d1.st n }
  match n with
  | .FunctionCall _ Function _ =>
    if outside d.position Function.GetPosition then .ret (d, true) else
    let found : Option FuncInfo :=
      match Function with
      | .Name _ _ =>
        let nameStr := env.NameToString Function
        match env.GetFunction (d.st.Namespace ++ "\\" ++ nameStr) with
        | some f => some f
        | none =>
          if d.st.Namespace ≠ "" then env.GetFunction ("\\" ++ nameStr) else none
      | .FullyQualified _ _ => env.GetFunction (env.FullyQualifiedToString Function)
      | _ => none
    match found with
    | some f => .ret ({ d with result := d.result ++ [locationOf f.Pos] }, true)
    | none => .ret (d, true)
  | .StaticCall _ Class Call _ =>
    if outside d.position Call.GetPosition then .ret (d, true) else
    match Call with
    | .Identifier _ Value =>
      match env.GetClassName d.st Class with
      | none => .ret (d, true)
      | some className =>
        match env.FindMethod className Value with
        | some f => .ret ({ d with result := d.result ++ [locationOf f.Pos] }, true)
        | none => .ret (d, true)
    | _ => .ret (d, true)
  | .MethodCall _ Variable Method _ =>
    if outside d.position Method.GetPosition then .ret (d, true) else
    match d.foundScopes.getLast? with
    | none => .ret (d, true)
    | some foundScope =>
      match Method with
      | .Identifier _ Value =>
        (safeExprType env foundScope d.st Variable).andThen fun types =>
          .ret (types.Iterate (fun (w : definitionWalker) t =>
            match env.FindMethod t Value with
            | none => w
            | some f => { w with result := w.result ++ [locationOf f.Pos] }) d, true)
      | _ => .ret (d, true)
  | .PropertyFetch _ Variable Property =>
    if outside d.position Property.GetPosition then .ret (d, true) else
    match d.foundScopes.getLast? with
    | none => .ret (d, true)
    | some foundScope =>
      match Property with
      | .Identifier _ Value =>
        (safeExprType env foundScope d.st Variable).andThen fun types =>
          .ret (types.Iterate (fun (w : definitionWalker) t =>
            match env.FindProperty t Value with
            | none => w
            | some p => { w with result := w.result ++ [locationOf p.Pos] }) d, true)
      | _ => .ret (d, true)
  | .ConstFetch _ Constant =>
    if outside d.position Constant.GetPosition then .ret (d, true) else
    match env.GetConstant d.st Constant with
    | some c => .ret ({ d with result := d.result ++ [locationOf c.Pos] }, true)
    | none => .ret (d, true)
  | .ClassConstFetch _ Class ConstantName =>
    if outside d.position ConstantName.GetPosition then .ret (d, true) else
    match ConstantName with
    | .Identifier _ Value =>
      if Value = "class" ∨ Value = "CLASS" then .ret (d, false) else
      match env.GetClassName d.st Class with
      | none => .ret (d, false)
      | some className =>
        match env.FindConstant className Value with
        | some c => .ret ({ d with result := d.result ++ [locationOf c.Pos] }, true)
        | none => .ret (d, true)
    | _ => .ret (d, false)
  | .Name _ _ =>
    if outside d.position n.GetPosition then .ret (d, true) else
    match env.GetClassName d.st n with
    | none => .ret (d, true)
    | some className =>
      match env.GetClassOrTrait className with
      | none => .ret (d, true)
      | some c => .ret ({ d with result := d.result ++ [locationOf c.Pos] }, true)
  | .FullyQualified _ _ =>
    if outside d.position n.GetPosition then .ret (d, true) else
    match env.GetClassName d.st n with
    | none => .ret (d, true)
    | some className =>
      match env.GetClassOrTrait className with
      | none => .ret (d, true)
      | some c => .ret ({ d with result := d.result ++ [locationOf c.Pos] }, true)
  | _ => .ret (d, true)

/-- The method `LeaveNode` of `definitionWalker`: the scope recorded for the
node, if there is one and a scope is on `foundScopes`, is popped, and
`state.LeaveNode` is applied at every node. A lookup in a nil map finds
nothing, as in a map without the key. -/
def definitionWalker.LeaveNode (env : Env) (d : definitionWalker) (n : Node) :
    definitionWalker :=
  let d1 : definitionWalker :=
    if (d.scopes n).isSome && decide (d.foundScopes.length > 0) then
      { d with foundScopes := d.foundScopes.take (d.foundScopes.length - 1) }
    else d
  { d1 with st := env.stateLeaveNode d1.st n }

/-- The sub-node whose span `EnterNode` compares with the query offset,
for the node kinds it handles. -/
def checkedNode : Node → Option Node
  | .FunctionCall _ function _ => some function
  | .StaticCall _ _ call _ => some call
  | .MethodCall _ _ method _ => some method
  | .PropertyFetch _ _ property => some property
  | .ConstFetch _ constant => some constant
  | .ClassConstFetch _ _ constantName => some constantName
  | .Name pos parts => some (.Name pos parts)
  | .FullyQualified pos parts => some (.FullyQualified pos parts)
  | _ => none

/-- The scope stack of the walker once `EnterNode` has looked `n` up in
`d.scopes`. -/
def scopesEntered (d : definitionWalker) (n : Node) : List Scope :=
  (d.pushScope n).foundScopes

/-- The target of a handled node resolves: the index, through the solver,
knows a declaration for what the node names. For a call or fetch on a
receiver this asks for an enclosing scope and a candidate type of the
receiver that has the member. -/
def targetResolves (env : Env) (d : definitionWalker) (n : Node) : Bool :=
  let st := env.stateEnterNode d.st n
  match n with
  | .FunctionCall _ (.Name p ps) _ =>
    (env.GetFunction (st.Namespace ++ "\\" ++ env.NameToString (.Name p ps))).isSome ||
      (decide (st.Namespace ≠ "") &&
        (env.GetFunction ("\\" ++ env.NameToString (.Name p ps))).isSome)
  | .FunctionCall _ (.FullyQualified p ps) _ =>
    (env.GetFunction (env.FullyQualifiedToString (.FullyQualified p ps))).isSome
  | .StaticCall _ cls (.Identifier _ v) _ =>
    match env.GetClassName st cls with
    | some c => (env.FindMethod c v).isSome
    | none => false
  | .MethodCall _ receiver (.Identifier _ v) _ =>
    match (scopesEntered d n).getLast? with
    | some sc =>
      match safeExprType env sc st receiver with
      | .ret types => types.keys.any fun t => (env.FindMethod t v).isSome
      | .panicked _ => false
    | none => false
  | .PropertyFetch _ receiver (.Identifier _ v) =>
    match (scopesEntered d n).getLast? with
    | some sc =>
      match safeExprType env sc st receiver with
      | .ret types => types.keys.any fun t => (env.FindProperty t v).isSome
      | .panicked _ => false
    | none => false
  | .ConstFetch _ constant => (env.GetConstant st constant).isSome
  | .ClassConstFetch _ cls (.Identifier _ v) =>
    decide (v ≠ "class") && decide (v ≠ "CLASS") &&
      match env.GetClassName st cls with
      | some c => (env.FindConstant c v).isSome
      | none => false
  | .Name p ps =>
    match env.GetClassName st (.Name p ps) with
    | some c => (env.GetClassOrTrait c).isSome
    | none => false
  | .FullyQualified p ps =>
    match env.GetClassName st (.FullyQualified p ps) with
    | some c => (env.GetClassOrTrait c).isSome
    | none => false
  | _ => false

/-- The declarations a handled node resolves to, as the positions of their
records: what the lookups of the index give for the name the node holds.
A call or fetch on a receiver resolves, under the innermost scope found, to
the member of each candidate type of the receiver that has it. -/
def resolvedDeclarations (env : Env) (d : definitionWalker) (n : Node) : List ElementPosition :=
  let st := env.stateEnterNode d.st n
  match n with
  | .FunctionCall _ (.Name p ps) _ =>
    match env.GetFunction (st.Namespace ++ "\\" ++ env.NameToString (.Name p ps)) with
    | some f => [f.Pos]
    | none =>
      if st.Namespace ≠ "" then
        (env.GetFunction ("\\" ++ env.NameToString (.Name p ps))).toList.map fun f => f.Pos
      else []
  | .FunctionCall _ (.FullyQualified p ps) _ =>
    (env.GetFunction (env.FullyQualifiedToString (.FullyQualified p ps))).toList.map
      fun f => f.Pos
  | .StaticCall _ cls (.Identifier _ v) _ =>
    match env.GetClassName st cls with
    | some c => (env.FindMethod c v).toList.map fun f => f.Pos
    | none => []
  | .MethodCall _ receiver (.Identifier _ v) _ =>
    match (scopesEntered d n).getLast? with
    | some sc =>
      match safeExprType env sc st receiver with
      | .ret types => types.keys.filterMap fun t => (env.FindMethod t v).map fun f => f.Pos
      | .panicked _ => []
    | none => []
  | .PropertyFetch _ receiver (.Identifier _ v) =>
    match (scopesEntered d n).getLast? with
    | some sc =>
      match safeExprType env sc st receiver with
      | .ret types => types.keys.filterMap fun t => (env.FindProperty t v).map fun p => p.Pos
      | .panicked _ => []
    | none => []
  | .ConstFetch _ constant => (env.GetConstant st constant).toList.map fun c => c.Pos
  | .ClassConstFetch _ cls (.Identifier _ v) =>
    if v = "class" ∨ v = "CLASS" then [] else
    match env.GetClassName st cls with
    | some c => (env.FindConstant c v).toList.map fun k => k.Pos
    | none => []
  | .Name p ps =>
    match env.GetClassName st (.Name p ps) with
    | some c => (env.GetClassOrTrait c).toList.map fun k => k.Pos
    | none => []
  | .FullyQualified p ps =>
    match env.GetClassName st (.FullyQualified p ps) with
    | some c => (env.GetClassOrTrait c).toList.map fun k => k.Pos
    | none => []
  | _ => []

/-- The query offset of the walker lies in the span of the sub-node that
`EnterNode` checks for this node. -/
def insideChecked (d : definitionWalker) (n : Node) : Bool :=
  match checkedNode n with
  | some c => !outside d.position c.GetPosition
  | none => false

/-- The `result` slice after `EnterNode`, when the call returns. -/
def resultAfter (env : Env) (d : definitionWalker) (n : Node) : Option (List vscode.Location) :=
  match d.EnterNode env n with
  | .ret r => some r.1.result
  | .panicked _ => none

/-! ## src/langsrv/hover.go -/

/-- The walker of a hover query. -/
structure hoverWalker where
  position : Int
  n : Option Node
  st : ClassParseState

/-- The method `EnterNode` of `hoverWalker`. -/
def hoverWalker.EnterNode (env : Env) (d : hoverWalker) (w : Node) : hoverWalker × Bool :=
  ({ d with st := env.stateEnterNode d.st w }, true)

/-- The kinds of the type switch in `hoverWalker.LeaveNode`. -/
def isHoverKind : Node → Bool
  | .Variable _ _ => true
  | .MethodCall _ _ _ _ => true
  | .FunctionCall _ _ _ => true
  | .StaticCall _ _ _ _ => true
  | _ => false

/-- The method `LeaveNode` of `hoverWalker`. -/
def hoverWalker.LeaveNode (env : Env) (d : hoverWalker) (w : Node) : hoverWalker :=
  if d.n.isSome then d else
  let checkPos := isHoverKind w
  let d1 : hoverWalker := { d with st := env.stateLeaveNode d.st w }
  if checkPos then
    if outside d1.position w.GetPosition then d1 else { d1 with n := some w }
  else d1

mutual
/-- The php-parser's `Walk` with a `hoverWalker` as visitor: `EnterNode`,
then, unless it returned false, the children in order and `LeaveNode`. -/
def Node.Walk (env : Env) (n : Node) (d : hoverWalker) : hoverWalker :=
  let r := d.EnterNode env n
  if r.2 = false then r.1 else
  let d1 : hoverWalker :=
    match n with
    | .Identifier _ _ => r.1
    | .NamePart _ _ => r.1
    | .Name _ parts => Node.WalkAll env parts r.1
    | .FullyQualified _ parts => Node.WalkAll env parts r.1
    | .Variable _ varName => Node.Walk env varName r.1
    | .FunctionCall _ function argumentList =>
      Node.Walk env argumentList (Node.Walk env function r.1)
    | .StaticCall _ cls call argumentList =>
      Node.Walk env argumentList (Node.Walk env call (Node.Walk env cls r.1))
    | .MethodCall _ receiver method argumentList =>
      Node.Walk env argumentList (Node.Walk env method (Node.Walk env receiver r.1))
    | .PropertyFetch _ receiver property =>
      Node.Walk env property (Node.Walk env receiver r.1)
    | .ConstFetch _ constant => Node.Walk env constant r.1
    | .ClassConstFetch _ cls constantName =>
      Node.Walk env constantName (Node.Walk env cls r.1)
    | .Other _ _ cs => Node.WalkAll env cs r.1
  d1.LeaveNode env n
/-- The walk of a list of child nodes, first to last. -/
def Node.WalkAll (env : Env) (ns : List Node) (d : hoverWalker) : hoverWalker :=
  match ns with
  | [] => d
  | n :: rest => Node.WalkAll env rest (Node.Walk env n d)
end

/-- A hover query on a tree: a fresh walker with the offset, walked over
the root. -/
def hoverWalk (env : Env) (root : Node) (position : Int) (st : ClassParseState) : hoverWalker :=
  root.Walk env { position := position, n := none, st := st }

/-- The span of the node contains the offset, both ends included. -/
def spanContains (n : Node) (P : Int) : Prop :=
  n.GetPosition.StartPos ≤ P ∧ P ≤ n.GetPosition.EndPos

instance (n : Node) (P : Int) : Decidable (spanContains n P) := by
  unfold spanContains; infer_instance

mutual
/-- All nodes of the subtree of `n`, children before parents. -/
def Node.subtree : Node → List Node
  | .Identifier pos v => [.Identifier pos v]
  | .NamePart pos v => [.NamePart pos v]
  | .Name pos parts => Node.subtrees parts ++ [.Name pos parts]
  | .FullyQualified pos parts => Node.subtrees parts ++ [.FullyQualified pos parts]
  | .Variable pos varName => Node.subtree varName ++ [.Variable pos varName]
  | .FunctionCall pos function argumentList =>
    Node.subtree function ++ Node.subtree argumentList ++
      [.FunctionCall pos function argumentList]
  | .StaticCall pos cls call argumentList =>
    Node.subtree cls ++ Node.subtree call ++ Node.subtree argumentList ++
      [.StaticCall pos cls call argumentList]
  | .MethodCall pos receiver method argumentList =>
    Node.subtree receiver ++ Node.subtree method ++ Node.subtree argumentList ++
      [.MethodCall pos receiver method argumentList]
  | .PropertyFetch pos receiver property =>
    Node.subtree receiver ++ Node.subtree property ++ [.PropertyFetch pos receiver property]
  | .ConstFetch pos constant => Node.subtree constant ++ [.ConstFetch pos constant]
  | .ClassConstFetch pos cls constantName =>
    Node.subtree cls ++ Node.subtree constantName ++ [.ClassConstFetch pos cls constantName]
  | .Other kind pos cs => Node.subtrees cs ++ [.Other kind pos cs]
/-- All nodes of the subtrees of a list of nodes. -/
def Node.subtrees : List Node → List Node
  | [] => []
  | n :: rest => Node.subtree n ++ Node.subtrees rest
end

/-- The node `k` lies strictly below `n`: it is in the subtree of a child. -/
def Node.properDescendant (k n : Node) : Prop :=
  ∃ c ∈ n.children, k ∈ c.subtree

/-! ## src/linter/parser.go -/

/-- The `git.LineRange` of a change: a range of lines. -/
structure LineRange where
  From : Int
  To : Int
deriving DecidableEq, Repr

/-- The record a producer sends to the workers. `Contents` is `none` for a
nil slice. -/
structure FileInfo where
  Filename : String
  Contents : Option (List UInt8) := none
  LineRanges : List LineRange := []
deriving DecidableEq, Repr

/-- Modelled from the spec: `linter.Report` is declared outside the embedded
files. A diagnostic carries its level, the name of its check and its message. -/
structure Report where
  level : Int
  checkName : String
  msg : String
deriving DecidableEq, Repr

/-- An error of the php-parser, given by the text of its `String` method. -/
structure ParseError where
  text : String
deriving DecidableEq, Repr

/-- The method `String` of a parser error. -/
def ParseError.String (e : ParseError) : String := e.text

/-- The state of a `php7.Parser` after `Parse`: the root node (`none` for
nil) and the errors found. -/
structure Parser where
  rootNode : Option Node
  errors : List ParseError

/-- The method `GetRootNode` of the parser. -/
def Parser.GetRootNode (p : Parser) : Option Node := p.rootNode

/-- The method `GetErrors` of the parser. -/
def Parser.GetErrors (p : Parser) : List ParseError := p.errors

/-- The fields of `RootWalker` that `analyzeFile` sets, and the reports the
walk collects. -/
structure RootWalker where
  filename : String
  lineRanges : List LineRange
  st : ClassParseState
  reports : List Report
deriving DecidableEq, Repr

/-- A source reader opened by `SrcInput`. -/
structure Reader where
  data : List UInt8
deriving DecidableEq, Repr

/-- The configuration, the operating system and the parts of the linter
that `parser.go` calls but does not define. The walker methods may panic. -/
structure LintEnv where
  PHPExtensions : List String
  IsIndexingComplete : Bool
  LevelError : Int
  Stack : String
  NewReader : String → Except String Reader
  NewBytesReader : String → List UInt8 → Except String Reader
  Parse : String → Reader → Outcome (Parser × List UInt8)
  InitFromParser : RootWalker → List UInt8 → Parser → Outcome RootWalker
  InitCustom : RootWalker → Outcome RootWalker
  WalkRoot : Node → RootWalker → Outcome RootWalker
  WalkBlock : Scope → Node → RootWalker → Outcome RootWalker
  AfterLeaveFile : RootWalker → Outcome RootWalker
  GetReports : RootWalker → List Report
  Report : RootWalker → Option Node → Int → String → String → RootWalker
  IndexFile : String → Option (List UInt8) → Option String
  Join : String → String → String
  ReadFile : String → Except String (List UInt8)

/-- The scan of `filepath.Ext` over the reversed path: back from the end up
to a path separator, stopping at the first dot met. -/
def extScan : List Char → List Char → List Char
  | [], _ => []
  | c :: cs, acc =>
    if c = '/' then [] else if c = '.' then '.' :: acc else extScan cs (c :: acc)

/-- The function `filepath.Ext`: the suffix of the last path element that
starts at its last dot, or the empty string. -/
def filepathExt (path : String) : String :=
  String.mk (extScan path.toList.reverse [])

/-- The function `isPHPExtension`. -/
def isPHPExtension (env : LintEnv) (filename : String) : Bool :=
  let fileExt := filepathExt filename
  if fileExt = "" then false else
  let fileExt1 := String.mk (fileExt.toList.drop 1)
  env.PHPExtensions.any fun ext => decide (fileExt1 = ext)

/-- The function `makePHPExtensionSuffixes`: for each extension, in order,
the bytes of `"." + ext`. A `[]byte` made from a string is the list of the
characters of the string: the code only compares these sequences with each
other and looks for `.` and `/` in them. -/
def makePHPExtensionSuffixes (env : LintEnv) : List (List Char) :=
  env.PHPExtensions.map fun ext => ("." ++ ext).toList

/-- The function `bytes.HasSuffix`. -/
def bytesHasSuffix (s suffix : List Char) : Bool :=
  suffix.isSuffixOf s

/-- The function `isPHPExtensionBytes`. -/
def isPHPExtensionBytes (filename : List Char) (suffixes : List (List Char)) : Bool :=
  suffixes.any fun suffix => bytesHasSuffix filename suffix

/-- The function `AnalyzeFileRootLevel`: the top-level code walked by a
block walker whose scope holds `$argv` and `$argc`. -/
def AnalyzeFileRootLevel (env : LintEnv) (rootNode : Node) (d : RootWalker) : Outcome RootWalker :=
  let sc : Scope :=
    { vars := [("argv", (NewTypesMap "string[]").keys, true),
               ("argc", (NewTypesMap "int").keys, true)] }
  env.WalkBlock sc rootNode d

/-- The function `analyzeFile`: root node, walker and error, nil being `none`. -/
def analyzeFile (env : LintEnv) (filename : String) (contents : List UInt8) (parser : Parser)
    (lineRanges : List LineRange) : Outcome (Option Node × Option RootWalker × Option String) :=
  match parser.GetRootNode with
  | none => .ret (none, none, some "Empty root node")
  | some rootNode =>
    let w : RootWalker :=
      { filename := filename, lineRanges := lineRanges,
        st := { Namespace := "", Classes := [], Uses := [] }, reports := [] }
    (env.InitFromParser w contents parser).andThen fun w1 =>
    (env.InitCustom w1).andThen fun w2 =>
    (env.WalkRoot rootNode w2).andThen fun w3 =>
    (if env.IsIndexingComplete then AnalyzeFileRootLevel env rootNode w3 else .ret w3).andThen
      fun w4 =>
    (env.AfterLeaveFile w4).andThen fun w5 =>
    let w6 := parser.GetErrors.foldl
      (fun acc e => env.Report acc none env.LevelError "syntax" ("Syntax error: " ++ e.String)) w5
    .ret (some rootNode, some w6, none)

/-- The first statements of `ParseContents`: the reader of the file, or of
the given contents when there are some. -/
def openSource (env : LintEnv) (filename : String) (contents : Option (List UInt8)) :
    Except String Reader :=
  match contents with
  | none => env.NewReader filename
  | some c => env.NewBytesReader filename c

/-- The body of `ParseContents`, before its deferred `recover` runs. The calls
it defers (`Close`, `Put`, `Finish`) return nothing and are left out. -/
def ParseContentsBody (env : LintEnv) (filename : String) (contents : Option (List UInt8))
    (lineRanges : List LineRange) : Outcome (Option Node × Option RootWalker × Option String) :=
  match openSource env filename contents with
  | .error err => .panicked ("open source input: " ++ err)
  | .ok rd =>
    (env.Parse filename rd).andThen fun parsed =>
      analyzeFile env filename parsed.2 parsed.1 lineRanges

/-- The function `ParseContents`: its body under the deferred `recover`,
which turns a panic into the returned error. -/
def ParseContents (env : LintEnv) (filename : String) (contents : Option (List UInt8))
    (lineRanges : List LineRange) : Outcome (Option Node × Option RootWalker × Option String) :=
  match ParseContentsBody env filename contents lineRanges with
  | .ret r => .ret r
  | .panicked r =>
    .ret (none, none,
      some ("Panic while parsing " ++ filename ++ ": " ++ r ++ "\n\nStack trace: " ++ env.Stack))

/-- The function `doParseFile`: the reports, and the lines it logs. -/
def doParseFile (env : LintEnv) (f : FileInfo) (needReports : Bool) :
    Outcome (List Report × List String) :=
  let logged (err : Option String) : List String :=
    match err with
    | some e => ["Failed parsing " ++ f.Filename ++ ": " ++ e]
    | none => []
  if needReports then
    (ParseContents env f.Filename f.Contents f.LineRanges).andThen fun r =>
      match r.2.2 with
      | none =>
        match r.2.1 with
        | some w => .ret (env.GetReports w, logged none)
        | none => .panicked "invalid memory address or nil pointer dereference"
      | some e => .ret ([], logged (some e))
  else
    .ret ([], logged (env.IndexFile f.Filename f.Contents))

/-- One worker of `ParseFilenames`: the reports of the files it receives,
appended in the order it receives them. -/
def workerReports (env : LintEnv) (needReports : Bool) (files : List FileInfo) :
    Outcome (List Report) :=
  files.foldl
    (fun acc f => acc.andThen fun rep =>
      (doParseFile env f needReports).andThen fun r => .ret (rep ++ r.1))
    (.ret [])

/-- The function `ParseFilenames` under a schedule: `batches` lists, in the
order the report slices arrive at `reportsCh`, the files each worker
received. A panic in a worker is not recovered. -/
def ParseFilenames (env : LintEnv) (batches : List (List FileInfo)) : Outcome (List Report) :=
  let needReports := env.IsIndexingComplete
  batches.foldl
    (fun acc b => acc.andThen fun allReports =>
      (workerReports env needReports b).andThen fun rep => .ret (allReports ++ rep))
    (.ret [])

/-- The kinds of `git.Change`. -/
inductive ChangeType where
  | Changed
  | Added
  | Deleted
deriving DecidableEq, Repr

/-- The fields of `git.Change` that the producers read; `Typ` is its field
`Type`. -/
structure Change where
  Typ : ChangeType
  OldName : String
  NewName : String
  OldLineRanges : List LineRange := []
  LineRanges : List LineRange := []
deriving DecidableEq, Repr

/-- What a producer callback did: the files it sent to the channel, the
lines it logged, and whether `log.Fatalf` ended the process. -/
structure ProducerRun where
  emitted : List FileInfo
  log : List String
  exited : Bool
deriving DecidableEq, Repr

/-- The loop of the callback of `ReadChangesFromWorkTree` from the state `r`. -/
def readChangesLoop (env : LintEnv) (dir : String) : List Change → ProducerRun → ProducerRun
  | [], r => r
  | c :: rest, r =>
    if c.Typ = ChangeType.Deleted then readChangesLoop env dir rest r else
    if !isPHPExtension env c.NewName then readChangesLoop env dir rest r else
    let filename := env.Join dir c.NewName
    match env.ReadFile filename with
    | .error err =>
      { r with log := r.log ++ ["Could not read file " ++ filename ++ ": " ++ err],
               exited := true }
    | .ok contents =>
      readChangesLoop env dir rest
        { r with emitted := r.emitted ++ [{ Filename := filename, Contents := some contents }] }

/-- The callback returned by `ReadChangesFromWorkTree`, run to its end. -/
def ReadChangesFromWorkTree (env : LintEnv) (dir : String) (changes : List Change) : ProducerRun :=
  readChangesLoop env dir changes { emitted := [], log := [], exited := false }

/-- Modelled from the spec: package `git` is declared outside the embedded
files. What the producers use of it: `NewCatter` opens a repository and gives
a handle, `GetTreeSHA1` finds the tree of a commit, and a walk of a tree meets
the files `treeFiles` in order, each with the contents read for it, and ends
with the error `walkError` if there is one. -/
structure GitEnv where
  NewCatter : String → Except String Nat
  GetTreeSHA1 : Nat → String → Except String String
  treeFiles : Nat → String → List (String × Option (List UInt8))
  walkError : Nat → String → Option String

/-- A Go `map[string][]git.LineRange`: the value held under each key, `none`
for a string that is not a key. -/
abbrev ChangedMap := String → Option (List LineRange)

/-- The map made by `make`. -/
def ChangedMap.empty : ChangedMap := fun _ => none

/-- The index expression `m[k]`: the nil slice for a missing key. -/
def ChangedMap.index (m : ChangedMap) (k : String) : List LineRange :=
  (m k).getD []

/-- The assignment `m[k] = v`. -/
def ChangedMap.set (m : ChangedMap) (k : String) (v : List LineRange) : ChangedMap :=
  fun k1 => if k1 = k then some v else m k1

/-- The comma-ok test `_, ok := m[k]`. -/
def ChangedMap.hasKey (m : ChangedMap) (k : String) : Bool :=
  (m k).isSome

/-- Modelled from the spec: `Catter.Walk` is declared outside the embedded
files. It offers the name of every file it meets to `filenameFilter` and hands
each accepted file, with its contents, to `contentsCallback`; it returns the
error of the walk. -/
def catterWalk (git : GitEnv) (catter : Nat) (tree : String)
    (filenameFilter : List Char → Bool)
    (contentsCallback : String → Option (List UInt8) → ProducerRun → ProducerRun)
    (r : ProducerRun) : ProducerRun × Option String :=
  ((git.treeFiles catter tree).foldl
    (fun r f => if filenameFilter f.1.toList then contentsCallback f.1 f.2 r else r) r,
   git.walkError catter tree)

/-- The first loop of `ReadOldFilesFromGit`: the map from the old name of
each change that is not an addition to its old line ranges. -/
def oldChangedMap (changes : List Change) : ChangedMap :=
  changes.foldl
    (fun changedMap ch =>
      if ch.Typ = ChangeType.Added then changedMap
      else changedMap.set ch.OldName (changedMap.index ch.OldName ++ ch.OldLineRanges))
    ChangedMap.empty

/-- The function `ReadOldFilesFromGit` with its callback run to the end. -/
def ReadOldFilesFromGit (env : LintEnv) (git : GitEnv) (repo commitSHA1 : String)
    (changes : List Change) : ProducerRun :=
  let changedMap := oldChangedMap changes
  match git.NewCatter repo with
  | .error err =>
    { emitted := [], log := ["Could not start catter: " ++ err], exited := true }
  | .ok catter =>
  match git.GetTreeSHA1 catter commitSHA1 with
  | .error err =>
    { emitted := [], log := ["Could not get tree sha1: " ++ err], exited := true }
  | .ok tree =>
  let suffixes := makePHPExtensionSuffixes env
  let walked := catterWalk git catter tree
    (fun filename =>
      if !isPHPExtensionBytes filename suffixes then false
      else changedMap.hasKey (String.mk filename))
    (fun filename contents r =>
      { r with emitted := r.emitted ++
          [{ Filename := filename, Contents := contents,
             LineRanges := changedMap.index filename }] })
    { emitted := [], log := [], exited := false }
  match walked.2 with
  | some err => { walked.1 with log := walked.1.log ++ ["Could not walk: " ++ err], exited := true }
  | none => walked.1

/-- The first loop of `ReadFilesFromGitWithChanges`: the map from the new
name of each change that is not a deletion to its line ranges. -/
def newChangedMap (changes : List Change) : ChangedMap :=
  changes.foldl
    (fun changedMap ch =>
      if ch.Typ = ChangeType.Deleted then changedMap
      else changedMap.set ch.NewName (changedMap.index ch.NewName ++ ch.LineRanges))
    ChangedMap.empty

/-- The function `ReadFilesFromGitWithChanges` with its callback run to the
end. -/
def ReadFilesFromGitWithChanges (env : LintEnv) (git : GitEnv) (repo commitSHA1 : String)
    (changes : List Change) : ProducerRun :=
  let changedMap := newChangedMap changes
  match git.NewCatter repo with
  | .error err =>
    { emitted := [], log := ["Could not start catter: " ++ err], exited := true }
  | .ok catter =>
  match git.GetTreeSHA1 catter commitSHA1 with
  | .error err =>
    { emitted := [], log := ["Could not get tree sha1: " ++ err], exited := true }
  | .ok tree =>
  let suffixes := makePHPExtensionSuffixes env
  let walked := catterWalk git catter tree
    (fun filename =>
      if !isPHPExtensionBytes filename suffixes then false
      else changedMap.hasKey (String.mk filename))
    (fun filename contents r =>
      { r with emitted := r.emitted ++
          [{ Filename := filename, Contents := contents,
             LineRanges := changedMap.index filename }] })
    { emitted := [], log := [], exited := false }
  match walked.2 with
  | some err => { walked.1 with log := walked.1.log ++ ["Could not walk: " ++ err], exited := true }
  | none => walked.1

/-! ## The goroutines of `ParseFilenames` -/

/-- One worker goroutine of `ParseFilenames`: the files it has received
from `filenamesCh`, its slice `rep`, and whether it has left its loop, sent
`rep` to `reportsCh` and called `wg.Done`. -/
structure Worker where
  received : List FileInfo
  rep : List Report
  done : Bool

/-- A state of a run of `ParseFilenames`: the files the producer has still
to send, whether `filenamesCh` is closed, the workers, the slices waiting
in `reportsCh` in the order they were sent, and the value returned once the
function has returned. `batches` and `calls` record what happened: the
files of each worker that has sent its slice, and the calls of
`doParseFile` with their arguments. -/
structure PoolState where
  pending : List FileInfo
  closed : Bool
  workers : List Worker
  reportsCh : List (List Report)
  batches : List (List FileInfo)
  calls : List (FileInfo × Bool)
  returned : Option (List Report)

/-- The state in which `ParseFilenames` starts its goroutines: the producer
will send `files`, `MaxConcurrency` workers wait for them. -/
def poolInit (MaxConcurrency : Nat) (files : List FileInfo) : PoolState :=
  { pending := files, closed := false,
    workers := List.replicate MaxConcurrency { received := [], rep := [], done := false },
    reportsCh := [], batches := [], calls := [], returned := none }

/-- One step of a run of `ParseFilenames`, goroutines interleaved in any
order. `receive`: a worker in its loop takes the next file from the
unbuffered `filenamesCh` and appends the reports of `doParseFile`.
`close`: the producer has sent everything and closes the channel.
`deliver`: a worker finds the channel closed, sends `rep` to `reportsCh`
(buffered for every worker) and calls `wg.Done`. `collect`: `wg.Wait`
returns, and the function appends the slices of `reportsCh` in order and
returns. -/
inductive PoolStep (env : LintEnv) (needReports : Bool) : PoolState → PoolState → Prop where
  | receive (s : PoolState) (ws1 ws2 : List Worker) (w : Worker) (f : FileInfo)
      (rest : List FileInfo) (r : List Report × List String) :
      s.pending = f :: rest → s.workers = ws1 ++ w :: ws2 → w.done = false →
      doParseFile env f needReports = .ret r →
      PoolStep env needReports s
        { s with
          pending := rest,
          workers := ws1 ++ { w with received := w.received ++ [f], rep := w.rep ++ r.1 } :: ws2,
          calls := s.calls ++ [(f, needReports)] }
  | close (s : PoolState) :
      s.pending = [] → s.closed = false →
      PoolStep env needReports s { s with closed := true }
  | deliver (s : PoolState) (ws1 ws2 : List Worker) (w : Worker) :
      s.closed = true → s.workers = ws1 ++ w :: ws2 → w.done = false →
      PoolStep env needReports s
        { s with
          workers := ws1 ++ { w with done := true } :: ws2,
          reportsCh := s.reportsCh ++ [w.rep],
          batches := s.batches ++ [w.received] }
  | collect (s : PoolState) :
      (∀ w ∈ s.workers, w.done = true) → s.returned = none →
      PoolStep env needReports s { s with returned := some s.reportsCh.flatten }

/-- The states a run of `ParseFilenames` can reach from its start. -/
def PoolReach (env : LintEnv) (MaxConcurrency : Nat) (files : List FileInfo) (s : PoolState) :
    Prop :=
  Relation.ReflTransGen (PoolStep env env.IsIndexingComplete) (poolInit MaxConcurrency files) s

/-- The number of steps a run still has to make. -/
def poolMeasure (s : PoolState) : Nat :=
  s.pending.length + (if s.closed then 0 else 1) +
    (s.workers.filter fun w => !w.done).length + (if s.returned.isSome then 0 else 1)

/-- The reports of `doParseFile` for a file. -/
def fileReports (env : LintEnv) (needReports : Bool) (f : FileInfo) : List Report :=
  match doParseFile env f needReports with
  | .ret r => r.1
  | .panicked _ => []

/-- What stays true along a run of `ParseFilenames` over `files` with
`MaxConcurrency` workers: every worker is in its loop or has delivered; the
channel is closed only when nothing is left to send, and a worker leaves
its loop only when it is closed; the files delivered, held by workers and
still to send are together the files of the producer; slices hold the
reports of the files received; and the function returns only what
`reportsCh` holds once every worker has delivered. -/
structure PoolInv (env : LintEnv) (MaxConcurrency : Nat) (files : List FileInfo)
    (s : PoolState) : Prop where
  count : s.batches.length + (s.workers.filter fun w => !w.done).length = MaxConcurrency
  workersLen : s.workers.length = MaxConcurrency
  closedPending : s.closed = true → s.pending = []
  doneClosed : ∀ w ∈ s.workers, w.done = true → s.closed = true
  shared : (s.batches.flatten ++ ((s.workers.filter fun w => !w.done).flatMap fun w => w.received)
    ++ s.pending).Perm files
  reps : ∀ w ∈ s.workers, w.rep = w.received.flatMap (fileReports env env.IsIndexingComplete)
  chan : s.reportsCh = s.batches.map fun b => b.flatMap (fileReports env env.IsIndexingComplete)
  called : s.calls.map Prod.fst ++ s.pending = files ∧ ∀ c ∈ s.calls, c.2 = env.IsIndexingComplete
  ret : ∀ rs, s.returned = some rs →
    rs = s.reportsCh.flatten ∧ ∀ w ∈ s.workers, w.done = true

/-! ## The resolver, from the spec -/

/-- Modelled from the spec: the expression nodes of `solver.ExprType`, which
is outside `src/`. Of the kinds the spec lists these are the ones a ternary
over `new` expressions is built from; every other kind is `Unsupported`. -/
inductive Expr where
  | Variable (name : String)
  | New (className : String)
  | Ternary (cond ifTrue ifFalse : Expr)
  | Unsupported
deriving DecidableEq, Repr

/-- Modelled from the spec: the union of two TypeSets, "commutative and
idempotent"; a TypeSet is kept as a list without repetition. -/
def typeSetUnion (a b : List String) : List String :=
  (a ++ b).dedup

/-- Modelled from the spec: the lookup of a variable in a `Scope`, which is
outside `src/`: the TypeSet of the variable, or the empty TypeSet when the
scope does not hold it. -/
def Scope.typeOf (sc : Scope) (name : String) : List String :=
  match sc.vars.find? fun e => e.1 = name with
  | some e => e.2.1
  | none => []

/-- Modelled from the spec: `inferType`, the function `solver.ExprType`
outside `src/`. A variable has the TypeSet its scope gives it; `new C` has
the single type `C`; a ternary has the union of the TypeSets of both
branches, whatever its condition; an unsupported kind has the empty
TypeSet. -/
def inferType (sc : Scope) : Expr → List String
  | .Variable name => sc.typeOf name
  | .New className => [className]
  | .Ternary _ ifTrue ifFalse => typeSetUnion (inferType sc ifTrue) (inferType sc ifFalse)
  | .Unsupported => []

/-- Modelled from the spec: the assignment `$name = e` as the block walker,
outside `src/`, applies it to the scope: the variable now holds the TypeSet
of `e` and is definitely assigned. -/
def Scope.assign (sc : Scope) (name : String) (e : Expr) : Scope :=
  { vars := (name, inferType sc e, true) :: sc.vars.filter fun v => v.1 ≠ name }

/-! ## Vocabulary of the statements -/

/-- The statements of `analyzeFile` between the creation of the walker and
the reporting of the parser errors: the walker is set up, the tree is
walked, the top-level code is analysed once indexing is complete, and the
custom checkers leave the file. -/
def walkSteps (env : LintEnv) (filename : String) (contents : List UInt8) (parser : Parser)
    (lineRanges : List LineRange) (rootNode : Node) : Outcome RootWalker :=
  (env.InitFromParser
    { filename := filename, lineRanges := lineRanges,
      st := { Namespace := "", Classes := [], Uses := [] }, reports := [] }
    contents parser).andThen fun w1 =>
  (env.InitCustom w1).andThen fun w2 =>
  (env.WalkRoot rootNode w2).andThen fun w3 =>
  (if env.IsIndexingComplete then AnalyzeFileRootLevel env rootNode w3 else .ret w3).andThen
    fun w4 =>
  env.AfterLeaveFile w4

/-- The calls of `Report` that `analyzeFile` makes for the parser errors,
first to last, from the walker `w`. -/
def reportErrors (env : LintEnv) (errors : List ParseError) (w : RootWalker) : RootWalker :=
  errors.foldl
    (fun acc e => env.Report acc none env.LevelError "syntax" ("Syntax error: " ++ e.String)) w

/-- A walker step leaves the file name and the line ranges of the walker
as they are. -/
def keepsFile (step : RootWalker → Outcome RootWalker) : Prop :=
  ∀ w w1, step w = .ret w1 → w1.filename = w.filename ∧ w1.lineRanges = w.lineRanges

/-- The methods of `RootWalker` and of the block walker that `analyzeFile`
calls leave the file name and the line ranges of the walker as they are. -/
def LintEnv.keepsFile (env : LintEnv) : Prop :=
  (∀ contents parser, Noverify.keepsFile fun w => env.InitFromParser w contents parser) ∧
  Noverify.keepsFile env.InitCustom ∧
  (∀ rootNode, Noverify.keepsFile (env.WalkRoot rootNode)) ∧
  (∀ sc rootNode, Noverify.keepsFile (env.WalkBlock sc rootNode)) ∧
  Noverify.keepsFile env.AfterLeaveFile ∧
  (∀ w n level checkName msg,
    (env.Report w n level checkName msg).filename = w.filename ∧
    (env.Report w n level checkName msg).lineRanges = w.lineRanges)

/-- A change is eligible for `ReadChangesFromWorkTree`: it is not a deletion
and its new name has a PHP extension. -/
def eligible (env : LintEnv) (c : Change) : Bool :=
  decide (c.Typ ≠ ChangeType.Deleted) && isPHPExtension env c.NewName

/-- The eligible changes of a list whose file can be read, as the records
`ReadChangesFromWorkTree` sends for them, in list order. -/
def readableFiles (env : LintEnv) (dir : String) (changes : List Change) : List FileInfo :=
  changes.filterMap fun c =>
    if eligible env c then
      match env.ReadFile (env.Join dir c.NewName) with
      | .ok contents => some { Filename := env.Join dir c.NewName, Contents := some contents }
      | .error _ => none
    else none

/-- The test of `LeaveNode` on a node, for the query offset `P`: an allowed
kind whose span contains `P`. -/
def hoverMatch (P : Int) (n : Node) : Bool :=
  isHoverKind n && !outside P n.GetPosition

/-! ## Example inputs -/

/-- The values of the name parts of a list of nodes. -/
def partValues : List Node → List String
  | [] => []
  | .NamePart _ v :: rest => v :: partValues rest
  | _ :: rest => partValues rest

/-- A small index: the functions `\App\helper` and `\helper`, the global
function `\strlen`, the classes `\Foo` and `\Bar` with a method `run` and a property
`name`, and a receiver `$obj` of type `\Foo|\Baz|\Bar`; the type of `$bad`
makes the solver panic. -/
def demoEnv : Env where
  stateEnterNode st _ := st
  stateLeaveNode st _ := st
  NameToString n :=
    match n with
    | .Name _ ps => "\\".intercalate (partValues ps)
    | _ => ""
  FullyQualifiedToString n :=
    match n with
    | .FullyQualified _ ps => "\\" ++ "\\".intercalate (partValues ps)
    | _ => ""
  GetFunction name :=
    if name = "\\App\\helper" then some ⟨⟨"/app/helper.php", 12⟩⟩
    else if name = "\\helper" then some ⟨⟨"/lib/helper.php", 1⟩⟩
    else if name = "\\strlen" then some ⟨⟨"/stubs/standard.php", 40⟩⟩
    else none
  GetClassOrTrait name :=
    if name = "\\Foo" then some ⟨⟨"/app/Foo.php", 3⟩⟩
    else if name = "\\Bar" then some ⟨⟨"/app/Bar.php", 5⟩⟩
    else none
  GetClassName _ n :=
    match n with
    | .Name _ ps => some ("\\" ++ "\\".intercalate (partValues ps))
    | .FullyQualified _ ps => some ("\\" ++ "\\".intercalate (partValues ps))
    | _ => none
  GetConstant _ n :=
    match n with
    | .Name _ [.NamePart _ "VERSION"] => some ⟨⟨"/app/consts.php", 2⟩⟩
    | _ => none
  FindMethod t m :=
    if m = "run" ∧ t = "\\Foo" then some ⟨⟨"/app/Foo.php", 7⟩⟩
    else if m = "run" ∧ t = "\\Bar" then some ⟨⟨"/app/Bar.php", 9⟩⟩
    else none
  FindProperty t m :=
    if m = "name" ∧ t = "\\Foo" then some ⟨⟨"/app/Foo.php", 4⟩⟩ else none
  FindConstant t m :=
    if m = "LIMIT" ∧ t = "\\Foo" then some ⟨⟨"/app/Foo.php", 5⟩⟩ else none
  ExprType _ _ n :=
    match n with
    | .Variable _ (.Identifier _ "obj") => .ret ⟨["\\Foo", "\\Baz", "\\Bar"], by decide⟩
    | .Variable _ (.Identifier _ "bad") => .panicked "boom"
    | _ => .ret ⟨[], List.nodup_nil⟩

/-- A definition walker inside namespace `\App`, with one enclosing scope
already found and no location collected. -/
def demoWalker (P : Int) : definitionWalker :=
  { st := { Namespace := "\\App", Classes := [], Uses := [] },
    position := P,
    scopes := fun _ => none,
    result := [],
    foundScopes := [{ vars := [] }] }

/-- The call `helper()` with the callee name at offsets 10 to 15. -/
def demoCall : Node :=
  .FunctionCall ⟨10, 17⟩ (.Name ⟨10, 15⟩ [.NamePart ⟨10, 15⟩ "helper"]) (.Other "ArgumentList" ⟨16, 17⟩ [])

/-- The call `strlen()` with the callee name at offsets 10 to 15. -/
def demoGlobalCall : Node :=
  .FunctionCall ⟨10, 17⟩ (.Name ⟨10, 15⟩ [.NamePart ⟨10, 15⟩ "strlen"]) (.Other "ArgumentList" ⟨16, 17⟩ [])

/-- The call `$obj->run()` with the method name at offsets 6 to 8. -/
def demoMethodCall : Node :=
  .MethodCall ⟨0, 10⟩ (.Variable ⟨0, 3⟩ (.Identifier ⟨1, 3⟩ "obj")) (.Identifier ⟨6, 8⟩ "run")
    (.Other "ArgumentList" ⟨9, 10⟩ [])

/-- The call `$bad->run()` with the method name at offsets 6 to 8. -/
def demoBadCall : Node :=
  .MethodCall ⟨0, 10⟩ (.Variable ⟨0, 3⟩ (.Identifier ⟨1, 3⟩ "bad")) (.Identifier ⟨6, 8⟩ "run")
    (.Other "ArgumentList" ⟨9, 10⟩ [])

/-- The call `foo($x)`: the variable `$x` at offsets 4 to 5 inside the call
at offsets 0 to 6. -/
def demoHoverTree : Node :=
  .FunctionCall ⟨0, 6⟩ (.Name ⟨0, 2⟩ [.NamePart ⟨0, 2⟩ "foo"])
    (.Other "ArgumentList" ⟨3, 6⟩
      [.Other "Argument" ⟨4, 5⟩ [.Variable ⟨4, 5⟩ (.Identifier ⟨4, 5⟩ "x")]])

/-- A linter configuration for the examples. `/missing.php` cannot be
opened, the parser panics on `/crash.php`, finds two errors in
`/broken.php` and gives no root for `/empty.php`; the walk panics on
`/odd.php`; `/repo/a.php` cannot be read. `Report` appends to the reports
that `GetReports` returns. -/
def demoLint (indexingComplete : Bool) : LintEnv where
  PHPExtensions := ["php", "inc", "php5", "phtml"]
  IsIndexingComplete := indexingComplete
  LevelError := 1
  Stack := "goroutine 7 [running]"
  NewReader filename :=
    if filename = "/missing.php" then .error "open /missing.php: no such file or directory"
    else .ok ⟨[]⟩
  NewBytesReader _ c := .ok ⟨c⟩
  Parse filename rd :=
    if filename = "/crash.php" then .panicked "runtime error: index out of range"
    else if filename = "/empty.php" then .ret (⟨none, [⟨"syntax error: unexpected $end"⟩]⟩, rd.data)
    else if filename = "/broken.php" then
      .ret (⟨some (.Other "Root" ⟨0, 9⟩ []),
        [⟨"syntax error: unexpected T_STRING at line 3"⟩, ⟨"syntax error: unexpected T_ELSE at line 8"⟩]⟩,
        rd.data)
    else .ret (⟨some (.Other "Root" ⟨0, 9⟩ []), []⟩, rd.data)
  InitFromParser w _ _ := .ret w
  InitCustom w := .ret w
  WalkRoot _ w := if w.filename = "/odd.php" then .panicked "unexpected node" else .ret w
  WalkBlock _ _ w := .ret w
  AfterLeaveFile w := .ret w
  GetReports w := w.reports
  Report w _ level checkName msg := { w with reports := w.reports ++ [⟨level, checkName, msg⟩] }
  IndexFile filename _ := if filename = "/empty.php" then some "Empty root node" else none
  Join dir name := dir ++ "/" ++ name
  ReadFile filename :=
    if filename = "/repo/a.php" then .error "open /repo/a.php: permission denied"
    else .ok [60, 63]

/-- The parser state of `/broken.php`: a root node and two errors. -/
def demoBrokenParser : Parser :=
  ⟨some (.Other "Root" ⟨0, 9⟩ []),
    [⟨"syntax error: unexpected T_STRING at line 3"⟩, ⟨"syntax error: unexpected T_ELSE at line 8"⟩]⟩

/-- The walker `analyzeFile` creates for `/broken.php`. -/
def demoRootWalker : RootWalker :=
  { filename := "/broken.php", lineRanges := [],
    st := { Namespace := "", Classes := [], Uses := [] }, reports := [] }

/-- Two changed files of a work tree; `a.php` cannot be read. -/
def demoChanges : List Change :=
  [{ Typ := .Changed, OldName := "a.php", NewName := "a.php" },
   { Typ := .Changed, OldName := "b.php", NewName := "b.php" }]

/-- A parse state kept as a stack: entering a class declaration pushes a
name on `Classes`, leaving it pops the name; other nodes leave it alone. -/
def stackEnv : Env :=
  { demoEnv with
    stateEnterNode := fun st n =>
      match n with
      | .Other "Class" _ _ => { st with Classes := st.Classes ++ ["C"] }
      | _ => st
    stateLeaveNode := fun st n =>
      match n with
      | .Other "Class" _ _ => { st with Classes := st.Classes.dropLast }
      | _ => st }

/-- A class at offsets 0 to 20 whose body holds the call `foo($x)` at
offsets 10 to 16. -/
def demoClassTree : Node :=
  .Other "Class" ⟨0, 20⟩
    [.FunctionCall ⟨10, 16⟩ (.Name ⟨10, 12⟩ [.NamePart ⟨10, 12⟩ "foo"])
      (.Other "ArgumentList" ⟨13, 16⟩
        [.Other "Argument" ⟨14, 15⟩ [.Variable ⟨14, 15⟩ (.Identifier ⟨14, 15⟩ "x")]])]

/-- A file with two classes: the class of `demoClassTree` at offsets 0 to
20 and an empty class at offsets 30 to 50. -/
def demoTwoClasses : Node :=
  .Other "Root" ⟨0, 50⟩ [demoClassTree, .Other "Class" ⟨30, 50⟩ []]

/-- The empty parse state of a fresh walk. -/
def emptyState : ClassParseState := { Namespace := "", Classes := [], Uses := [] }

/-- Two files for a run of `ParseFilenames`: `/broken.php` has two syntax
errors, `/a.php` has none. -/
def demoFiles : List FileInfo :=
  [{ Filename := "/broken.php" }, { Filename := "/a.php" }]

/-- A commit with four files; the walk of its tree meets them in this order
and ends without an error. -/
def demoGit : GitEnv where
  NewCatter repo := if repo = "/repo" then .ok 1 else .error "not a git repository"
  GetTreeSHA1 _ commitSHA1 := if commitSHA1 = "c0ffee" then .ok "7ree" else .error "bad object"
  treeFiles _ _ :=
    [("README.md", some [35]), ("src/a.php", some [60, 63]), ("src/b.php", some [60]),
     ("src/old.php", some [])]
  walkError _ _ := none

/-- Four changes of the commit: two of `src/a.php`, the second one a rename
from `src/z.php`, a change of `README.md` and the deletion of `src/old.php`. -/
def demoGitChanges : List Change :=
  [{ Typ := .Changed, OldName := "src/a.php", NewName := "src/a.php",
     OldLineRanges := [⟨1, 2⟩], LineRanges := [⟨1, 3⟩] },
   { Typ := .Changed, OldName := "README.md", NewName := "README.md",
     OldLineRanges := [⟨4, 4⟩], LineRanges := [⟨4, 5⟩] },
   { Typ := .Changed, OldName := "src/z.php", NewName := "src/a.php",
     OldLineRanges := [⟨7, 8⟩], LineRanges := [⟨10, 12⟩, ⟨20, 20⟩] },
   { Typ := .Deleted, OldName := "src/old.php", NewName := "src/old.php",
     OldLineRanges := [⟨1, 9⟩], LineRanges := [] }]

/-! # Theorems -/

/-! ## Facts about the definition walker -/

theorem outside_eq_false {P : Int} {pos : Position} (h1 : pos.StartPos ≤ P) (h2 : P ≤ pos.EndPos) :
    outside P pos = false := by
  simp [outside]; omega

theorem outside_eq_true {P : Int} {pos : Position} (h : P < pos.StartPos ∨ pos.EndPos < P) :
    outside P pos = true := by
  simp [outside]; omega

theorem pushScope_result (d : definitionWalker) (n : Node) :
    (d.pushScope n).result = d.result := by
  unfold definitionWalker.pushScope; cases d.scopes n <;> rfl

theorem pushScope_position (d : definitionWalker) (n : Node) :
    (d.pushScope n).position = d.position := by
  unfold definitionWalker.pushScope; cases d.scopes n <;> rfl

theorem pushScope_st (d : definitionWalker) (n : Node) :
    (d.pushScope n).st = d.st := by
  unfold definitionWalker.pushScope; cases d.scopes n <;> rfl

theorem safeExprType_returns (env : Env) (sc : Scope) (cs : ClassParseState) (n : Node) :
    ∃ res, safeExprType env sc cs n = .ret res := by
  unfold safeExprType
  cases env.ExprType sc cs n <;> simp

/-- Outside the span of the checked sub-node `EnterNode` leaves `result` as
it was. -/
theorem resultAfter_outside (env : Env) (d : definitionWalker) (n c : Node)
    (hc : checkedNode n = some c) (hout : outside d.position c.GetPosition = true) :
    resultAfter env d n = some d.result := by
  cases n <;> simp [checkedNode] at hc <;> subst hc <;>
    simp_all [resultAfter, definitionWalker.EnterNode, Node.GetPosition, pushScope_result,
      pushScope_position, pushScope_st]

theorem foldl_result_of (cb : definitionWalker → String → definitionWalker)
    (find : String → Option vscode.Location)
    (hcb : ∀ w t, (cb w t).result = w.result ++ (find t).toList)
    (keys : List String) (w : definitionWalker) :
    (keys.foldl cb w).result = w.result ++ keys.filterMap find := by
  induction keys generalizing w with
  | nil => simp
  | cons t rest ih =>
    simp only [List.foldl_cons, ih, hcb]
    cases h : find t <;> simp [h, List.filterMap_cons]

theorem filterMap_ne_nil_of_mem {β : Type} (find : String → Option β) (keys : List String)
    (t : String) (ht : t ∈ keys) (hf : (find t).isSome) (g : β → vscode.Location) :
    ∃ loc locs, keys.filterMap (fun t => (find t).map g) = loc :: locs := by
  cases h : keys.filterMap (fun t => (find t).map g) with
  | nil =>
    rw [List.filterMap_eq_nil_iff] at h
    have := h t ht
    cases hft : find t <;> simp_all
  | cons loc locs => exact ⟨loc, locs, rfl⟩

/-- Inside the span of the checked sub-node, a node whose target resolves
makes `EnterNode` append at least one location. -/
theorem resultAfter_inside (env : Env) (d : definitionWalker) (n c : Node)
    (hc : checkedNode n = some c) (hres : targetResolves env d n = true)
    (hin : outside d.position c.GetPosition = false) :
    ∃ loc locs, resultAfter env d n = some (d.result ++ loc :: locs) := by
  cases n with
  | FunctionCall pos fn args =>
    simp [checkedNode] at hc; subst hc
    cases fn <;> simp [targetResolves] at hres
    · rename_i p ps
      cases h1 : env.GetFunction ((env.stateEnterNode d.st (.FunctionCall pos (.Name p ps) args)).Namespace
          ++ "\\" ++ env.NameToString (.Name p ps)) with
      | some f =>
        exact ⟨locationOf f.Pos, [], by
          simp_all [resultAfter, definitionWalker.EnterNode, Node.GetPosition, pushScope_result,
            pushScope_position, pushScope_st]⟩
      | none =>
        simp [h1] at hres
        obtain ⟨hns, h2⟩ := hres
        cases h3 : env.GetFunction ("\\" ++ env.NameToString (.Name p ps)) with
        | none => simp [h3] at h2
        | some f =>
          exact ⟨locationOf f.Pos, [], by
            simp_all [resultAfter, definitionWalker.EnterNode, Node.GetPosition, pushScope_result,
              pushScope_position, pushScope_st]⟩
    · rename_i p ps
      cases h1 : env.GetFunction (env.FullyQualifiedToString (.FullyQualified p ps)) with
      | none => simp [h1] at hres
      | some f =>
        exact ⟨locationOf f.Pos, [], by
          simp_all [resultAfter, definitionWalker.EnterNode, Node.GetPosition, pushScope_result,
            pushScope_position, pushScope_st]⟩
  | StaticCall pos cls call args =>
    simp [checkedNode] at hc; subst hc
    cases call <;> simp [targetResolves] at hres
    rename_i ip v
    cases hcn : env.GetClassName (env.stateEnterNode d.st
        (.StaticCall pos cls (.Identifier ip v) args)) cls with
    | none => simp [hcn] at hres
    | some cn =>
      simp only [hcn] at hres
      cases h1 : env.FindMethod cn v with
      | none => simp [h1] at hres
      | some f =>
        exact ⟨locationOf f.Pos, [], by
          simp_all [resultAfter, definitionWalker.EnterNode, Node.GetPosition, pushScope_result,
            pushScope_position, pushScope_st]⟩
  | MethodCall pos receiver method args =>
    simp [checkedNode] at hc; subst hc
    cases method <;> simp [targetResolves] at hres
    rename_i ip v
    cases hsc : (scopesEntered d (.MethodCall pos receiver (.Identifier ip v) args)).getLast? with
    | none => simp [hsc] at hres
    | some sc =>
      simp only [hsc] at hres
      cases hty : safeExprType env sc (env.stateEnterNode d.st
          (.MethodCall pos receiver (.Identifier ip v) args)) receiver with
      | panicked r => simp [hty] at hres
      | ret types =>
        simp only [hty, List.any_eq_true] at hres
        obtain ⟨t, ht, hf⟩ := hres
        obtain ⟨loc, locs, hl⟩ := filterMap_ne_nil_of_mem (fun t => env.FindMethod t v)
          types.keys t ht hf (fun f => locationOf f.Pos)
        refine ⟨loc, locs, ?_⟩
        unfold scopesEntered at hsc
        simp only [Node.GetPosition] at hin
        simp only [resultAfter, definitionWalker.EnterNode, Node.GetPosition, pushScope_result,
          pushScope_position, pushScope_st, Outcome.andThen, TypesMap.Iterate, hin, hsc, hty,
          Bool.false_eq_true, if_false]
        rw [foldl_result_of _ (fun t => (env.FindMethod t v).map (fun f => locationOf f.Pos))
          (by intro w t; split <;> simp_all)]
        simp [hl]
  | PropertyFetch pos receiver property =>
    simp [checkedNode] at hc; subst hc
    cases property <;> simp [targetResolves] at hres
    rename_i ip v
    cases hsc : (scopesEntered d (.PropertyFetch pos receiver (.Identifier ip v))).getLast? with
    | none => simp [hsc] at hres
    | some sc =>
      simp only [hsc] at hres
      cases hty : safeExprType env sc (env.stateEnterNode d.st
          (.PropertyFetch pos receiver (.Identifier ip v))) receiver with
      | panicked r => simp [hty] at hres
      | ret types =>
        simp only [hty, List.any_eq_true] at hres
        obtain ⟨t, ht, hf⟩ := hres
        obtain ⟨loc, locs, hl⟩ := filterMap_ne_nil_of_mem (fun t => env.FindProperty t v)
          types.keys t ht hf (fun f => locationOf f.Pos)
        refine ⟨loc, locs, ?_⟩
        unfold scopesEntered at hsc
        simp only [Node.GetPosition] at hin
        simp only [resultAfter, definitionWalker.EnterNode, Node.GetPosition, pushScope_result,
          pushScope_position, pushScope_st, Outcome.andThen, TypesMap.Iterate, hin, hsc, hty,
          Bool.false_eq_true, if_false]
        rw [foldl_result_of _ (fun t => (env.FindProperty t v).map (fun f => locationOf f.Pos))
          (by intro w t; split <;> simp_all)]
        simp [hl]
  | ConstFetch pos constant =>
    simp [checkedNode] at hc; subst hc
    simp [targetResolves] at hres
    cases h1 : env.GetConstant (env.stateEnterNode d.st (.ConstFetch pos constant)) constant with
    | none => simp [h1] at hres
    | some f =>
      exact ⟨locationOf f.Pos, [], by
        simp_all [resultAfter, definitionWalker.EnterNode, Node.GetPosition, pushScope_result,
          pushScope_position, pushScope_st]⟩
  | ClassConstFetch pos cls constantName =>
    simp [checkedNode] at hc; subst hc
    cases constantName <;> simp [targetResolves] at hres
    rename_i ip v
    obtain ⟨⟨hv1, hv2⟩, hres⟩ := hres
    cases hcn : env.GetClassName (env.stateEnterNode d.st
        (.ClassConstFetch pos cls (.Identifier ip v))) cls with
    | none => simp [hcn] at hres
    | some cn =>
      simp only [hcn] at hres
      cases h1 : env.FindConstant cn v with
      | none => simp [h1] at hres
      | some f =>
        exact ⟨locationOf f.Pos, [], by
          simp_all [resultAfter, definitionWalker.EnterNode, Node.GetPosition, pushScope_result,
            pushScope_position, pushScope_st]⟩
  | Name pos parts =>
    simp [checkedNode] at hc; subst hc
    simp only [targetResolves] at hres
    cases hcn : env.GetClassName (env.stateEnterNode d.st (.Name pos parts)) (.Name pos parts) with
    | none => simp [hcn] at hres
    | some cn =>
      simp only [hcn] at hres
      cases h1 : env.GetClassOrTrait cn with
      | none => simp [h1] at hres
      | some f =>
        exact ⟨locationOf f.Pos, [], by
          simp_all [resultAfter, definitionWalker.EnterNode, Node.GetPosition, pushScope_result,
            pushScope_position, pushScope_st]⟩
  | FullyQualified pos parts =>
    simp [checkedNode] at hc; subst hc
    simp only [targetResolves] at hres
    cases hcn : env.GetClassName (env.stateEnterNode d.st (.FullyQualified pos parts))
        (.FullyQualified pos parts) with
    | none => simp [hcn] at hres
    | some cn =>
      simp only [hcn] at hres
      cases h1 : env.GetClassOrTrait cn with
      | none => simp [h1] at hres
      | some f =>
        exact ⟨locationOf f.Pos, [], by
          simp_all [resultAfter, definitionWalker.EnterNode, Node.GetPosition, pushScope_result,
            pushScope_position, pushScope_st]⟩
  | _ => simp [checkedNode] at hc

theorem scopesEntered_position (d : definitionWalker) (n : Node) (P : Int) :
    scopesEntered { d with position := P } n = scopesEntered d n := by
  unfold scopesEntered definitionWalker.pushScope
  cases d.scopes n <;> rfl

theorem targetResolves_position (env : Env) (d : definitionWalker) (n : Node) (P : Int) :
    targetResolves env { d with position := P } n = targetResolves env d n := by
  simp only [targetResolves, scopesEntered_position]

/-- C1: for every node kind `EnterNode` handles, with `c` the checked name
sub-node and a target that resolves: at every query offset inside the span
of `c` at least one location is appended to `result`, at every offset
outside the span `result` is unchanged; so a location is appended at
`StartPos` and at `EndPos` (for a span with `StartPos ≤ EndPos`) and none at
`StartPos - 1` and `EndPos + 1`. -/
theorem EnterNode_span_inclusive (env : Env) (d : definitionWalker) (n c : Node)
    (hc : checkedNode n = some c) (hres : targetResolves env d n = true) :
    (∀ P : Int, c.GetPosition.StartPos ≤ P → P ≤ c.GetPosition.EndPos →
      ∃ loc locs, resultAfter env { d with position := P } n = some (d.result ++ loc :: locs)) ∧
    (∀ P : Int, P < c.GetPosition.StartPos ∨ c.GetPosition.EndPos < P →
      resultAfter env { d with position := P } n = some d.result) ∧
    (c.GetPosition.StartPos ≤ c.GetPosition.EndPos →
      (∃ loc locs, resultAfter env { d with position := c.GetPosition.StartPos } n =
        some (d.result ++ loc :: locs)) ∧
      (∃ loc locs, resultAfter env { d with position := c.GetPosition.EndPos } n =
        some (d.result ++ loc :: locs))) ∧
    resultAfter env { d with position := c.GetPosition.StartPos - 1 } n = some d.result ∧
    resultAfter env { d with position := c.GetPosition.EndPos + 1 } n = some d.result := by
  have hin : ∀ P : Int, c.GetPosition.StartPos ≤ P → P ≤ c.GetPosition.EndPos →
      ∃ loc locs, resultAfter env { d with position := P } n = some (d.result ++ loc :: locs) := by
    intro P h1 h2
    exact resultAfter_inside env { d with position := P } n c hc
      ((targetResolves_position env d n P).trans hres) (outside_eq_false h1 h2)
  have hout : ∀ P : Int, P < c.GetPosition.StartPos ∨ c.GetPosition.EndPos < P →
      resultAfter env { d with position := P } n = some d.result := by
    intro P h
    exact resultAfter_outside env { d with position := P } n c hc (outside_eq_true h)
  refine ⟨hin, hout, ?_, ?_, ?_⟩
  · intro hle
    exact ⟨hin _ (le_refl _) hle, hin _ hle (le_refl _)⟩
  · exact hout _ (Or.inl (by omega))
  · exact hout _ (Or.inr (by omega))

/-- C1 at the call `helper()` in namespace `\App`: the callee name spans
offsets 10 to 15 and `\App\helper` is declared. -/
theorem EnterNode_span_inclusive_witness :
    checkedNode demoCall = some (.Name ⟨10, 15⟩ [.NamePart ⟨10, 15⟩ "helper"]) ∧
    targetResolves demoEnv (demoWalker 0) demoCall = true ∧
    (∃ loc locs, resultAfter demoEnv (demoWalker 10) demoCall = some ([] ++ loc :: locs)) ∧
    (∃ loc locs, resultAfter demoEnv (demoWalker 15) demoCall = some ([] ++ loc :: locs)) ∧
    resultAfter demoEnv (demoWalker 9) demoCall = some [] ∧
    resultAfter demoEnv (demoWalker 16) demoCall = some [] :=
  have hres : targetResolves demoEnv (demoWalker 0) demoCall = true := by decide
  have h := EnterNode_span_inclusive demoEnv (demoWalker 0) demoCall
    (.Name ⟨10, 15⟩ [.NamePart ⟨10, 15⟩ "helper"]) rfl hres
  ⟨rfl, hres, (h.2.2.1 (by decide)).1, (h.2.2.1 (by decide)).2, h.2.2.2.1, h.2.2.2.2⟩

/-- C4: at a method call `recv->m(...)` whose name is an identifier and
contains the query offset, under an enclosing scope `sc`, `EnterNode`
appends to `result`, for the types of the receiver's TypeSet in iteration
order, the declaration of `m` for each type where `FindMethod` finds one
and nothing for the other types; the number of locations added is the
number of candidate types that have `m`, at most the size of the TypeSet. -/
theorem MethodCall_location_per_type (env : Env) (d : definitionWalker) (pos ip : Position)
    (receiver args : Node) (v : String) (sc : Scope)
    (hin : ip.StartPos ≤ d.position ∧ d.position ≤ ip.EndPos)
    (hsc : (scopesEntered d (.MethodCall pos receiver (.Identifier ip v) args)).getLast? = some sc) :
    ∃ (types : TypesMap) (added : List vscode.Location),
      safeExprType env sc
        (env.stateEnterNode d.st (.MethodCall pos receiver (.Identifier ip v) args)) receiver
          = .ret types ∧
      resultAfter env d (.MethodCall pos receiver (.Identifier ip v) args)
        = some (d.result ++ added) ∧
      added = types.keys.filterMap (fun t => (env.FindMethod t v).map (fun f => locationOf f.Pos)) ∧
      added.length = types.keys.countP (fun t => (env.FindMethod t v).isSome) ∧
      added.length ≤ types.keys.length := by
  obtain ⟨types, hty⟩ := safeExprType_returns env sc
    (env.stateEnterNode d.st (.MethodCall pos receiver (.Identifier ip v) args)) receiver
  refine ⟨types, _, hty, ?_, rfl, ?_, List.length_filterMap_le _ _⟩
  · have hin1 := outside_eq_false hin.1 hin.2
    unfold scopesEntered at hsc
    simp only [resultAfter, definitionWalker.EnterNode, Node.GetPosition, pushScope_result,
      pushScope_position, pushScope_st, Outcome.andThen, TypesMap.Iterate, hin1, hsc, hty,
      Bool.false_eq_true, if_false]
    rw [foldl_result_of _ (fun t => (env.FindMethod t v).map (fun f => locationOf f.Pos))
      (by intro w t; split <;> simp_all)]
  · rw [List.length_filterMap_eq_countP]
    congr 1
    funext t
    cases env.FindMethod t v <;> rfl

/-- C4 at `$obj->run()`: the receiver has the candidate types `\Foo`, `\Baz`
and `\Bar`, of which `\Foo` and `\Bar` have `run`; two locations are added. -/
theorem MethodCall_location_per_type_witness :
    resultAfter demoEnv (demoWalker 7) demoMethodCall =
      some [locationOf ⟨"/app/Foo.php", 7⟩, locationOf ⟨"/app/Bar.php", 9⟩] ∧
    ∃ (types : TypesMap) (added : List vscode.Location),
      safeExprType demoEnv { vars := [] } (demoWalker 7).st
        (.Variable ⟨0, 3⟩ (.Identifier ⟨1, 3⟩ "obj")) = .ret types ∧
      resultAfter demoEnv (demoWalker 7) demoMethodCall = some ((demoWalker 7).result ++ added) ∧
      added = types.keys.filterMap
        (fun t => (demoEnv.FindMethod t "run").map (fun f => locationOf f.Pos)) ∧
      added.length = types.keys.countP (fun t => (demoEnv.FindMethod t "run").isSome) ∧
      added.length ≤ types.keys.length :=
  ⟨by decide,
   MethodCall_location_per_type demoEnv (demoWalker 7) ⟨0, 10⟩ ⟨6, 8⟩
    (.Variable ⟨0, 3⟩ (.Identifier ⟨1, 3⟩ "obj")) (.Other "ArgumentList" ⟨9, 10⟩ []) "run"
    { vars := [] } (by decide) (by decide)⟩

/-- The result of `EnterNode` at a function call whose callee is a `Name`,
for a query offset inside the callee: the namespace-qualified lookup, then,
if that fails inside a namespace, the global one. -/
theorem resultAfter_FunctionCall_Name (env : Env) (d : definitionWalker) (pos p : Position)
    (ps : List Node) (args : Node) (hin : outside d.position p = false) :
    resultAfter env d (.FunctionCall pos (.Name p ps) args) =
      some (d.result ++
        ((match env.GetFunction ((env.stateEnterNode d.st
              (.FunctionCall pos (.Name p ps) args)).Namespace ++ "\\" ++
              env.NameToString (.Name p ps)) with
          | some f => some f
          | none =>
            if (env.stateEnterNode d.st (.FunctionCall pos (.Name p ps) args)).Namespace ≠ ""
            then env.GetFunction ("\\" ++ env.NameToString (.Name p ps)) else none).map
          (fun (f : FuncInfo) => locationOf f.Pos)).toList) := by
  cases h1 : env.GetFunction ((env.stateEnterNode d.st
      (.FunctionCall pos (.Name p ps) args)).Namespace ++ "\\" ++
      env.NameToString (.Name p ps)) with
  | some f =>
    simp [resultAfter, definitionWalker.EnterNode, Node.GetPosition, pushScope_result,
      pushScope_position, pushScope_st, hin, h1]
  | none =>
    by_cases hns : (env.stateEnterNode d.st (.FunctionCall pos (.Name p ps) args)).Namespace = ""
    · have h1g : env.GetFunction ("\\" ++ env.NameToString (.Name p ps)) = none := by
        simpa [hns] using h1
      simp [resultAfter, definitionWalker.EnterNode, Node.GetPosition, pushScope_result,
        pushScope_position, pushScope_st, hin, h1g, hns]
    · cases h2 : env.GetFunction ("\\" ++ env.NameToString (.Name p ps)) <;>
        simp [resultAfter, definitionWalker.EnterNode, Node.GetPosition, pushScope_result,
          pushScope_position, pushScope_st, hin, h1, hns, h2]

/-- C5: at a function call whose callee contains the query offset. For an
unqualified callee `s` in namespace `ns`: if `ns\s` is registered its
location is appended, whatever the global `\s` is; if it is not and `ns` is
not empty, the location of `\s` is appended when that is registered; a
location is appended exactly when one of the lookups made succeeds, and
otherwise `result` is unchanged. For a fully-qualified callee only the name
as written is looked up. -/
theorem FunctionCall_namespace_fallback (env : Env) (d : definitionWalker) (pos p : Position)
    (ps : List Node) (args : Node)
    (hin : p.StartPos ≤ d.position ∧ d.position ≤ p.EndPos) :
    (∀ f, env.GetFunction ((env.stateEnterNode d.st
          (.FunctionCall pos (.Name p ps) args)).Namespace ++ "\\" ++
          env.NameToString (.Name p ps)) = some f →
        resultAfter env d (.FunctionCall pos (.Name p ps) args)
          = some (d.result ++ [locationOf f.Pos])) ∧
    (∀ g, env.GetFunction ((env.stateEnterNode d.st
          (.FunctionCall pos (.Name p ps) args)).Namespace ++ "\\" ++
          env.NameToString (.Name p ps)) = none →
        (env.stateEnterNode d.st (.FunctionCall pos (.Name p ps) args)).Namespace ≠ "" →
        env.GetFunction ("\\" ++ env.NameToString (.Name p ps)) = some g →
        resultAfter env d (.FunctionCall pos (.Name p ps) args)
          = some (d.result ++ [locationOf g.Pos])) ∧
    ((∃ loc, resultAfter env d (.FunctionCall pos (.Name p ps) args) = some (d.result ++ [loc])) ↔
      ((env.GetFunction ((env.stateEnterNode d.st
          (.FunctionCall pos (.Name p ps) args)).Namespace ++ "\\" ++
          env.NameToString (.Name p ps))).isSome ∨
        ((env.stateEnterNode d.st (.FunctionCall pos (.Name p ps) args)).Namespace ≠ "" ∧
          (env.GetFunction ("\\" ++ env.NameToString (.Name p ps))).isSome))) ∧
    (¬ ((env.GetFunction ((env.stateEnterNode d.st
          (.FunctionCall pos (.Name p ps) args)).Namespace ++ "\\" ++
          env.NameToString (.Name p ps))).isSome ∨
        ((env.stateEnterNode d.st (.FunctionCall pos (.Name p ps) args)).Namespace ≠ "" ∧
          (env.GetFunction ("\\" ++ env.NameToString (.Name p ps))).isSome)) →
      resultAfter env d (.FunctionCall pos (.Name p ps) args) = some d.result) ∧
    (∀ f, env.GetFunction (env.FullyQualifiedToString (.FullyQualified p ps)) = some f →
        resultAfter env d (.FunctionCall pos (.FullyQualified p ps) args)
          = some (d.result ++ [locationOf f.Pos])) ∧
    (env.GetFunction (env.FullyQualifiedToString (.FullyQualified p ps)) = none →
        resultAfter env d (.FunctionCall pos (.FullyQualified p ps) args) = some d.result) := by
  have hin1 := outside_eq_false hin.1 hin.2
  have hN := resultAfter_FunctionCall_Name env d pos p ps args hin1
  refine ⟨?_, ?_, ?_, ?_, ?_, ?_⟩
  · intro f hf
    rw [hN, hf]; rfl
  · intro g h1 hns h2
    rw [hN, h1]; simp [hns, h2]
  · rw [hN]
    cases h1 : env.GetFunction ((env.stateEnterNode d.st
        (.FunctionCall pos (.Name p ps) args)).Namespace ++ "\\" ++
        env.NameToString (.Name p ps)) with
    | some f => simp
    | none =>
      by_cases hns : (env.stateEnterNode d.st (.FunctionCall pos (.Name p ps) args)).Namespace = ""
      · simp [hns]
      · cases h2 : env.GetFunction ("\\" ++ env.NameToString (.Name p ps)) <;> simp [hns, h2]
  · intro hno
    rw [hN]
    cases h1 : env.GetFunction ((env.stateEnterNode d.st
        (.FunctionCall pos (.Name p ps) args)).Namespace ++ "\\" ++
        env.NameToString (.Name p ps)) with
    | some f => simp [h1] at hno
    | none =>
      by_cases hns : (env.stateEnterNode d.st (.FunctionCall pos (.Name p ps) args)).Namespace = ""
      · simp [hns]
      · cases h2 : env.GetFunction ("\\" ++ env.NameToString (.Name p ps)) with
        | none => simp [hns, h2]
        | some g => simp [h1, hns, h2] at hno
  · intro f hf
    simp [resultAfter, definitionWalker.EnterNode, Node.GetPosition, pushScope_result,
      pushScope_position, pushScope_st, hin1, hf]
  · intro hf
    simp [resultAfter, definitionWalker.EnterNode, Node.GetPosition, pushScope_result,
      pushScope_position, pushScope_st, hin1, hf]

/-- C5 in namespace `\App`: `helper()` resolves to `\App\helper` although
`\helper` exists too, and `strlen()` falls back to the global `\strlen`. -/
theorem FunctionCall_namespace_fallback_witness :
    ((10 : Int) ≤ 12 ∧ (12 : Int) ≤ 15) ∧
    (demoEnv.GetFunction "\\helper").isSome ∧
    resultAfter demoEnv (demoWalker 12) demoCall
      = some ([] ++ [locationOf ⟨"/app/helper.php", 12⟩]) ∧
    resultAfter demoEnv (demoWalker 12) demoGlobalCall
      = some ([] ++ [locationOf ⟨"/stubs/standard.php", 40⟩]) :=
  ⟨by decide, by decide,
   (FunctionCall_namespace_fallback demoEnv (demoWalker 12) ⟨10, 17⟩ ⟨10, 15⟩
      [.NamePart ⟨10, 15⟩ "helper"] (.Other "ArgumentList" ⟨16, 17⟩ []) (by decide)).1
      ⟨⟨"/app/helper.php", 12⟩⟩ (by decide),
   (FunctionCall_namespace_fallback demoEnv (demoWalker 12) ⟨10, 17⟩ ⟨10, 15⟩
      [.NamePart ⟨10, 15⟩ "strlen"] (.Other "ArgumentList" ⟨16, 17⟩ []) (by decide)).2.1
      ⟨⟨"/stubs/standard.php", 40⟩⟩ (by decide) (by decide) (by decide)⟩

/-! ## The fault boundary of `safeExprType` -/

theorem NewTypesMap_keys_ne_nil (str : String) : (NewTypesMap str).keys ≠ [] := by
  unfold NewTypesMap
  simp only [ne_eq, List.dedup_eq_nil, List.map_eq_nil_iff]
  exact List.splitOnP_ne_nil _ _

/-- C6, as the code has it: `safeExprType` always returns; when
`solver.ExprType` panics with value `r` it returns the TypeSet
`NewTypesMap("Panic: " + r)`, which is not empty (the note is its type
name); when `solver.ExprType` returns, its result is returned unchanged. -/
theorem safeExprType_fault_boundary (env : Env) (sc : Scope) (cs : ClassParseState) (n : Node) :
    (∃ res, safeExprType env sc cs n = .ret res) ∧
    (∀ r, env.ExprType sc cs n = .panicked r →
      safeExprType env sc cs n = .ret (NewTypesMap ("Panic: " ++ r)) ∧
      (NewTypesMap ("Panic: " ++ r)).keys ≠ []) ∧
    (∀ res, env.ExprType sc cs n = .ret res → safeExprType env sc cs n = .ret res) := by
  refine ⟨safeExprType_returns env sc cs n, ?_, ?_⟩
  · intro r h
    exact ⟨by simp [safeExprType, h], NewTypesMap_keys_ne_nil _⟩
  · intro res h
    simp [safeExprType, h]

/-- C6 fails as stated: the solver panics with `boom` on `$bad`, and the
TypeSet `safeExprType` returns holds the type name `Panic: boom`, so it is
not empty. -/
theorem safeExprType_panic_not_empty :
    demoEnv.ExprType { vars := [] } (demoWalker 0).st
      (.Variable ⟨0, 3⟩ (.Identifier ⟨1, 3⟩ "bad")) = .panicked "boom" ∧
    (∃ res, safeExprType demoEnv { vars := [] } (demoWalker 0).st
        (.Variable ⟨0, 3⟩ (.Identifier ⟨1, 3⟩ "bad")) = .ret res ∧
      res.keys = ["Panic: boom"]) ∧
    ¬ (∀ res, safeExprType demoEnv { vars := [] } (demoWalker 0).st
        (.Variable ⟨0, 3⟩ (.Identifier ⟨1, 3⟩ "bad")) = .ret res → res.keys = []) := by
  refine ⟨rfl, ⟨NewTypesMap ("Panic: " ++ "boom"), rfl, by decide⟩, ?_⟩
  intro h
  have h1 := h (NewTypesMap ("Panic: " ++ "boom")) rfl
  exact absurd h1 (by decide)

/-! ## The hover walk -/

theorem Node.sizeOf_child_lt (n c : Node) (h : c ∈ n.children) : sizeOf c < sizeOf n := by
  cases n <;> simp [Node.children] at h
  all_goals first
    | exact Nat.lt_of_lt_of_le (List.sizeOf_lt_of_mem h) (by simp)
    | (rcases h with h | h | h <;> subst h <;> simp <;> omega)
    | (rcases h with h | h <;> subst h <;> simp <;> omega)
    | (subst h; simp)

/-- Induction over a tree of nodes: from the children to the node. -/
theorem Node.induct {motive : Node → Prop}
    (step : ∀ n, (∀ c ∈ n.children, motive c) → motive n) (n : Node) : motive n := by
  have key : ∀ k : Nat, ∀ m : Node, sizeOf m = k → motive m := by
    intro k
    induction k using Nat.strong_induction_on with
    | _ k ih =>
      intro m hm
      apply step
      intro c hc
      exact ih (sizeOf c) (hm ▸ Node.sizeOf_child_lt m c hc) c rfl
  exact key (sizeOf n) n rfl

theorem Node.subtrees_eq (cs : List Node) : Node.subtrees cs = cs.flatMap Node.subtree := by
  induction cs with
  | nil => simp [Node.subtrees]
  | cons c rest ih => simp [Node.subtrees, ih]

theorem Node.subtree_eq (n : Node) : n.subtree = Node.subtrees n.children ++ [n] := by
  cases n <;> simp [Node.subtree, Node.subtrees, Node.children]

theorem Node.Walk_eq (env : Env) (n : Node) (d : hoverWalker) :
    n.Walk env d = (Node.WalkAll env n.children (d.EnterNode env n).1).LeaveNode env n := by
  cases n <;> simp [Node.Walk, Node.WalkAll, Node.children, hoverWalker.EnterNode]

theorem LeaveNode_spec (env : Env) (d : hoverWalker) (n : Node) :
    (d.LeaveNode env n).position = d.position ∧
    (d.LeaveNode env n).n = d.n.or ([n].find? (hoverMatch d.position)) := by
  unfold hoverWalker.LeaveNode hoverMatch
  cases hn : d.n with
  | some m => simp [hn]
  | none =>
    cases hk : isHoverKind n <;> cases ho : outside d.position n.GetPosition <;>
      simp [hn, hk, ho, List.find?]

theorem WalkAll_spec (env : Env) (cs : List Node)
    (hcs : ∀ c ∈ cs, ∀ d : hoverWalker, (c.Walk env d).position = d.position ∧
      (c.Walk env d).n = d.n.or (c.subtree.find? (hoverMatch d.position))) :
    ∀ d : hoverWalker, (Node.WalkAll env cs d).position = d.position ∧
      (Node.WalkAll env cs d).n = d.n.or ((Node.subtrees cs).find? (hoverMatch d.position)) := by
  induction cs with
  | nil => intro d; simp [Node.WalkAll, Node.subtrees, Option.or_none]
  | cons c rest ih =>
    intro d
    have hc := hcs c (List.mem_cons_self _ _) d
    have hr := ih (fun c' hc' => hcs c' (List.mem_cons_of_mem _ hc')) (c.Walk env d)
    simp only [Node.WalkAll, Node.subtrees, List.find?_append]
    rw [hr.1, hr.2, hc.1, hc.2, Option.or_assoc]
    exact ⟨rfl, rfl⟩

/-- The hover walk of a subtree keeps the offset and selects, unless a node
is selected already, the first node of the subtree, children before
parents, that passes the test of `LeaveNode`. -/
theorem Walk_spec (env : Env) (n : Node) :
    ∀ d : hoverWalker, (n.Walk env d).position = d.position ∧
      (n.Walk env d).n = d.n.or (n.subtree.find? (hoverMatch d.position)) := by
  induction n using Node.induct with
  | step n ih =>
    intro d
    have hall := WalkAll_spec env n.children ih (d.EnterNode env n).1
    have hl := LeaveNode_spec env (Node.WalkAll env n.children (d.EnterNode env n).1) n
    rw [Node.Walk_eq, Node.subtree_eq, List.find?_append, hl.1, hl.2, hall.1, hall.2,
      Option.or_assoc]
    simp [hoverWalker.EnterNode]

theorem hoverMatch_iff (P : Int) (n : Node) :
    hoverMatch P n = true ↔ isHoverKind n = true ∧ spanContains n P := by
  simp [hoverMatch, outside, spanContains]
  omega

theorem find?_subtrees (p : Node → Bool) (cs : List Node) (m : Node)
    (h : (Node.subtrees cs).find? p = some m) : ∃ c ∈ cs, c.subtree.find? p = some m := by
  induction cs with
  | nil => simp [Node.subtrees] at h
  | cons c rest ih =>
    simp only [Node.subtrees, List.find?_append] at h
    cases hc : c.subtree.find? p with
    | some m' =>
      rw [hc] at h
      simp at h
      exact ⟨c, List.mem_cons_self _ _, by rw [hc, h]⟩
    | none =>
      rw [hc] at h
      simp at h
      obtain ⟨c', hc', hm⟩ := ih h
      exact ⟨c', List.mem_cons_of_mem _ hc', hm⟩

/-- The first node of a subtree that passes a test, children before
parents, has no node below it that passes the test. -/
theorem find?_subtree_innermost (p : Node → Bool) (n : Node) :
    ∀ m, n.subtree.find? p = some m → ∀ k, k.properDescendant m → p k = false := by
  induction n using Node.induct with
  | step n ih =>
    intro m hm k hk
    rw [Node.subtree_eq, List.find?_append] at hm
    cases hC : (Node.subtrees n.children).find? p with
    | some m' =>
      rw [hC] at hm
      simp at hm
      subst hm
      obtain ⟨c, hc, hcm⟩ := find?_subtrees p n.children m' hC
      exact ih c hc m' hcm k hk
    | none =>
      rw [hC] at hm
      simp only [Option.none_or] at hm
      have hmn : m = n := by
        by_cases hp : p n
        · simp [List.find?, hp] at hm; exact hm.symm
        · simp [List.find?, hp] at hm
      subst hmn
      rw [List.find?_eq_none] at hC
      obtain ⟨c, hc, hkc⟩ := hk
      have hmem : k ∈ Node.subtrees m.children := by
        rw [Node.subtrees_eq, List.mem_flatMap]
        exact ⟨c, hc, hkc⟩
      simpa using hC k hmem

theorem hoverWalk_n (env : Env) (root : Node) (P : Int) (st : ClassParseState) :
    (hoverWalk env root P st).n = root.subtree.find? (hoverMatch P) := by
  unfold hoverWalk
  rw [(Walk_spec env root _).2]
  simp

/-- C2: after a complete hover walk from a fresh walker the selected node,
when there is one, is a node of the tree of an allowed kind whose span
contains the offset, and no node strictly below it is of an allowed kind
with a span that contains the offset. -/
theorem hoverWalk_selects_innermost (env : Env) (root : Node) (P : Int) (st : ClassParseState)
    (m : Node) (hm : (hoverWalk env root P st).n = some m) :
    isHoverKind m = true ∧ spanContains m P ∧ m ∈ root.subtree ∧
    ∀ k, k.properDescendant m → isHoverKind k = true → ¬ spanContains k P := by
  rw [hoverWalk_n] at hm
  have h1 := (hoverMatch_iff P m).mp (List.find?_some hm)
  refine ⟨h1.1, h1.2, List.mem_of_find?_eq_some hm, ?_⟩
  intro k hk hkind hspan
  have := find?_subtree_innermost (hoverMatch P) root m hm k hk
  rw [(hoverMatch_iff P k).mpr ⟨hkind, hspan⟩] at this
  exact absurd this (by decide)

/-- C2 on `foo($x)` at offset 4: the variable is selected, not the call
around it. -/
theorem hoverWalk_selects_innermost_witness :
    (hoverWalk demoEnv demoHoverTree 4 (demoWalker 0).st).n
      = some (.Variable ⟨4, 5⟩ (.Identifier ⟨4, 5⟩ "x")) ∧
    isHoverKind (.Variable ⟨4, 5⟩ (.Identifier ⟨4, 5⟩ "x")) = true ∧
    spanContains (.Variable ⟨4, 5⟩ (.Identifier ⟨4, 5⟩ "x")) 4 ∧
    Node.Variable ⟨4, 5⟩ (.Identifier ⟨4, 5⟩ "x") ∈ demoHoverTree.subtree ∧
    ∀ k, k.properDescendant (.Variable ⟨4, 5⟩ (.Identifier ⟨4, 5⟩ "x")) →
      isHoverKind k = true → ¬ spanContains k 4 :=
  ⟨rfl, hoverWalk_selects_innermost demoEnv demoHoverTree 4 (demoWalker 0).st
    (.Variable ⟨4, 5⟩ (.Identifier ⟨4, 5⟩ "x")) rfl⟩

/-- C3: the hover walk from a fresh walker ends with a node selected if and
only if the tree has a node of an allowed kind whose span contains the
offset, both ends included; a node of any other kind is never selected. -/
theorem hoverWalk_selects_iff (env : Env) (root : Node) (P : Int) (st : ClassParseState) :
    ((hoverWalk env root P st).n.isSome = true ↔
      ∃ m ∈ root.subtree, isHoverKind m = true ∧
        m.GetPosition.StartPos ≤ P ∧ P ≤ m.GetPosition.EndPos) ∧
    (∀ m, isHoverKind m = false → (hoverWalk env root P st).n ≠ some m) := by
  rw [hoverWalk_n]
  constructor
  · rw [List.find?_isSome]
    constructor
    · rintro ⟨m, hm, hp⟩
      exact ⟨m, hm, (hoverMatch_iff P m).mp hp⟩
    · rintro ⟨m, hm, hp⟩
      exact ⟨m, hm, (hoverMatch_iff P m).mpr hp⟩
  · intro m hk hsel
    have := ((hoverMatch_iff P m).mp (List.find?_some hsel)).1
    rw [hk] at this
    exact absurd this (by decide)

/-! ## The pipeline of `parser.go` -/

theorem foldl_ret_fixed {α β : Type} (step : Outcome α → β → Outcome α) (l : List β) (a : α)
    (h : ∀ b ∈ l, step (.ret a) b = .ret a) : l.foldl step (.ret a) = .ret a := by
  induction l with
  | nil => rfl
  | cons b rest ih =>
    rw [List.foldl_cons, h b (List.mem_cons_self _ _)]
    exact ih (fun b' hb' => h b' (List.mem_cons_of_mem _ hb'))

theorem workerReports_index (env : LintEnv) (files : List FileInfo) :
    workerReports env false files = .ret [] := by
  unfold workerReports
  apply foldl_ret_fixed
  intro f _
  simp [Outcome.andThen, doParseFile]

/-- C7: the index pass produces no diagnostics. With `needReports` false
`doParseFile` only calls `IndexFile`, logs its error if it gives one, and
returns an empty report list either way; so `ParseFilenames`, entered while
indexing is not complete, returns an empty report list for every stream of
files and every schedule of the workers. -/
theorem index_pass_no_reports (env : LintEnv) (hseal : env.IsIndexingComplete = false) :
    (∀ f : FileInfo, doParseFile env f false =
      .ret ([], (env.IndexFile f.Filename f.Contents).toList.map
        (fun e => "Failed parsing " ++ f.Filename ++ ": " ++ e))) ∧
    (∀ batches : List (List FileInfo), ParseFilenames env batches = .ret []) := by
  constructor
  · intro f
    cases h : env.IndexFile f.Filename f.Contents <;> simp [doParseFile, h]
  · intro batches
    unfold ParseFilenames
    rw [hseal]
    apply foldl_ret_fixed
    intro b _
    simp [Outcome.andThen, workerReports_index]

/-- C7 before the index is sealed: two workers, one of which meets a file
whose indexing fails. -/
theorem index_pass_no_reports_witness :
    (demoLint false).IsIndexingComplete = false ∧
    doParseFile (demoLint false) { Filename := "/empty.php" } false
      = .ret ([], ["Failed parsing /empty.php: Empty root node"]) ∧
    ParseFilenames (demoLint false)
      [[{ Filename := "/empty.php" }, { Filename := "/broken.php" }], [{ Filename := "/a.php" }]]
      = .ret [] :=
  ⟨rfl, by decide, (index_pass_no_reports (demoLint false) rfl).2 _⟩

theorem andThen_eq_ret {α β : Type} (x : Outcome α) (f : α → Outcome β) (b : β)
    (h : x.andThen f = .ret b) : ∃ a, x = .ret a ∧ f a = .ret b := by
  cases x with
  | ret a => exact ⟨a, rfl, h⟩
  | panicked r => simp [Outcome.andThen] at h

theorem analyzeFile_nil_error (env : LintEnv) (filename : String) (contents : List UInt8)
    (parser : Parser) (lineRanges : List LineRange) (root : Option Node) (w : Option RootWalker)
    (h : analyzeFile env filename contents parser lineRanges = .ret (root, w, none)) :
    ∃ w1, w = some w1 := by
  unfold analyzeFile at h
  cases hr : parser.GetRootNode with
  | none => simp [hr] at h
  | some rootNode =>
    simp only [hr] at h
    obtain ⟨w1, _, h⟩ := andThen_eq_ret _ _ _ h
    obtain ⟨w2, _, h⟩ := andThen_eq_ret _ _ _ h
    obtain ⟨w3, _, h⟩ := andThen_eq_ret _ _ _ h
    obtain ⟨w4, _, h⟩ := andThen_eq_ret _ _ _ h
    obtain ⟨w5, _, h⟩ := andThen_eq_ret _ _ _ h
    simp only [Outcome.ret.injEq, Prod.mk.injEq] at h
    exact ⟨_, h.2.1.symm⟩

theorem ParseContents_nil_error (env : LintEnv) (filename : String)
    (contents : Option (List UInt8)) (lineRanges : List LineRange) (root : Option Node)
    (w : Option RootWalker)
    (h : ParseContents env filename contents lineRanges = .ret (root, w, none)) :
    ∃ w1, w = some w1 := by
  unfold ParseContents at h
  cases hb : ParseContentsBody env filename contents lineRanges with
  | panicked r => simp [hb] at h
  | ret r =>
    simp only [hb, Outcome.ret.injEq] at h
    subst h
    unfold ParseContentsBody at hb
    cases ho : openSource env filename contents with
    | error e => simp [ho] at hb
    | ok rd =>
      simp only [ho] at hb
      obtain ⟨parsed, _, hb⟩ := andThen_eq_ret _ _ _ hb
      exact analyzeFile_nil_error env filename parsed.2 parsed.1 lineRanges root w hb

/-- C8: per-file processing is fault-isolated. `ParseContents` always
returns; a panic of its body (the failed opening of the source reader, a
panic of the parser, a panic of `analyzeFile` while walking) comes back as
the error `Panic while parsing <file>: <panic value>` with its stack trace;
`doParseFile` answers an error of `ParseContents` with an empty report list
and a log line, and returns normally for every file. -/
theorem ParseContents_fault_isolated (env : LintEnv) (f : FileInfo) :
    (∃ r, ParseContents env f.Filename f.Contents f.LineRanges = .ret r) ∧
    (∀ msg, ParseContentsBody env f.Filename f.Contents f.LineRanges = .panicked msg →
      ParseContents env f.Filename f.Contents f.LineRanges =
        .ret (none, none, some ("Panic while parsing " ++ f.Filename ++ ": " ++ msg ++
          "\n\nStack trace: " ++ env.Stack))) ∧
    (∀ err, openSource env f.Filename f.Contents = .error err →
      ParseContentsBody env f.Filename f.Contents f.LineRanges =
        .panicked ("open source input: " ++ err)) ∧
    (∀ rd msg, openSource env f.Filename f.Contents = .ok rd →
      env.Parse f.Filename rd = .panicked msg →
      ParseContentsBody env f.Filename f.Contents f.LineRanges = .panicked msg) ∧
    (∀ rd parsed msg, openSource env f.Filename f.Contents = .ok rd →
      env.Parse f.Filename rd = .ret parsed →
      analyzeFile env f.Filename parsed.2 parsed.1 f.LineRanges = .panicked msg →
      ParseContentsBody env f.Filename f.Contents f.LineRanges = .panicked msg) ∧
    (∀ root w e, ParseContents env f.Filename f.Contents f.LineRanges = .ret (root, w, some e) →
      doParseFile env f true = .ret ([], ["Failed parsing " ++ f.Filename ++ ": " ++ e])) ∧
    (∀ needReports, ∃ r, doParseFile env f needReports = .ret r) := by
  refine ⟨?_, ?_, ?_, ?_, ?_, ?_, ?_⟩
  · unfold ParseContents
    cases ParseContentsBody env f.Filename f.Contents f.LineRanges <;> simp
  · intro msg h
    simp [ParseContents, h]
  · intro err h
    simp [ParseContentsBody, h]
  · intro rd msg ho hp
    simp [ParseContentsBody, ho, hp, Outcome.andThen]
  · intro rd parsed msg ho hp ha
    simp [ParseContentsBody, ho, hp, ha, Outcome.andThen]
  · intro root w e h
    simp [doParseFile, h, Outcome.andThen]
  · intro needReports
    cases needReports with
    | false => simp [doParseFile]
    | true =>
      unfold doParseFile
      simp only [if_true]
      cases hp : ParseContents env f.Filename f.Contents f.LineRanges with
      | panicked r =>
        unfold ParseContents at hp
        cases hb : ParseContentsBody env f.Filename f.Contents f.LineRanges <;> simp [hb] at hp
      | ret r =>
        obtain ⟨root, w, err⟩ := r
        cases err with
        | some e => simp [Outcome.andThen]
        | none =>
          obtain ⟨w1, hw⟩ := ParseContents_nil_error env _ _ _ root w hp
          subst hw
          simp [Outcome.andThen]

/-- C8 on `/missing.php`, whose reader cannot be opened: the panic of
`ParseContents` comes back as an error that names the file, and
`doParseFile` returns no report. -/
theorem ParseContents_fault_isolated_witness :
    ParseContents (demoLint true) "/missing.php" none [] =
      .ret (none, none, some ("Panic while parsing " ++ "/missing.php" ++ ": " ++
        ("open source input: " ++ "open /missing.php: no such file or directory") ++
        "\n\nStack trace: " ++ "goroutine 7 [running]")) ∧
    ∃ r, doParseFile (demoLint true) { Filename := "/missing.php" } true = .ret r :=
  have h := ParseContents_fault_isolated (demoLint true) { Filename := "/missing.php" }
  ⟨h.2.1 _ (h.2.2.1 _ rfl), h.2.2.2.2.2.2 true⟩

theorem reportErrors_reports (env : LintEnv)
    (happend : ∀ w n l c m, env.GetReports (env.Report w n l c m) = env.GetReports w ++ [⟨l, c, m⟩])
    (errors : List ParseError) (w : RootWalker) :
    env.GetReports (reportErrors env errors w)
    = env.GetReports w ++ errors.map
      (fun e => ⟨env.LevelError, "syntax", "Syntax error: " ++ e.String⟩) := by
  unfold reportErrors
  induction errors generalizing w with
  | nil => simp
  | cons e rest ih => simp [List.foldl_cons, ih, happend]

theorem Outcome.andThen_assoc {α β γ : Type} (x : Outcome α) (f : α → Outcome β)
    (g : β → Outcome γ) :
    (x.andThen f).andThen g = x.andThen (fun a => (f a).andThen g) := by
  cases x <;> rfl

theorem analyzeFile_eq (env : LintEnv) (filename : String) (contents : List UInt8)
    (parser : Parser) (lineRanges : List LineRange) (rootNode : Node)
    (hroot : parser.GetRootNode = some rootNode) :
    analyzeFile env filename contents parser lineRanges =
      (walkSteps env filename contents parser lineRanges rootNode).andThen fun w5 =>
        .ret (some rootNode, some (reportErrors env parser.GetErrors w5), none) := by
  unfold analyzeFile walkSteps reportErrors
  simp only [hroot, Outcome.andThen_assoc]

/-- C9: for a parser state with a root node and any list of syntax errors.
When the walk of the tree completes (`w5` is the walker it leaves),
`analyzeFile` returns the root, a nil error and the walker after one call of
`Report` per parser error, in the parser's order, each with a nil node,
level `LevelError`, check name `syntax` and the message `Syntax error: `
followed by the text of the error; where `Report` appends its report to the
list `GetReports` returns, that list gains exactly these reports. Whatever
the errors are, `analyzeFile` never returns a non-nil error, and it returns
whenever the walk does. -/
theorem analyzeFile_reports_each_error (env : LintEnv) (filename : String)
    (contents : List UInt8) (parser : Parser) (lineRanges : List LineRange) (rootNode : Node)
    (w5 : RootWalker)
    (hroot : parser.GetRootNode = some rootNode)
    (hwalk : walkSteps env filename contents parser lineRanges rootNode = .ret w5) :
    analyzeFile env filename contents parser lineRanges =
      .ret (some rootNode, some (reportErrors env parser.GetErrors w5), none) ∧
    ((∀ w n l c m, env.GetReports (env.Report w n l c m) = env.GetReports w ++ [⟨l, c, m⟩]) →
      env.GetReports (reportErrors env parser.GetErrors w5)
        = env.GetReports w5 ++ parser.GetErrors.map
          (fun e => ⟨env.LevelError, "syntax", "Syntax error: " ++ e.String⟩)) ∧
    (∀ res, analyzeFile env filename contents parser lineRanges = .ret res → res.2.2 = none) := by
  have heq := analyzeFile_eq env filename contents parser lineRanges rootNode hroot
  refine ⟨?_, ?_, ?_⟩
  · rw [heq, hwalk]; rfl
  · intro happend
    exact reportErrors_reports env happend _ _
  · intro res hres
    rw [heq, hwalk] at hres
    simp only [Outcome.andThen, Outcome.ret.injEq] at hres
    rw [← hres]

/-- C9 on `/broken.php`: two parser errors, two reports, no error returned. -/
theorem analyzeFile_reports_each_error_witness :
    demoBrokenParser.GetRootNode = some (.Other "Root" ⟨0, 9⟩ []) ∧
    walkSteps (demoLint true) "/broken.php" [] demoBrokenParser [] (.Other "Root" ⟨0, 9⟩ [])
      = .ret demoRootWalker ∧
    analyzeFile (demoLint true) "/broken.php" [] demoBrokenParser [] =
      .ret (some (.Other "Root" ⟨0, 9⟩ []),
        some (reportErrors (demoLint true) demoBrokenParser.GetErrors demoRootWalker),
        none) ∧
    reportErrors (demoLint true) demoBrokenParser.GetErrors demoRootWalker =
      { demoRootWalker with reports :=
          [⟨1, "syntax", "Syntax error: syntax error: unexpected T_STRING at line 3"⟩,
           ⟨1, "syntax", "Syntax error: syntax error: unexpected T_ELSE at line 8"⟩] } :=
  ⟨rfl, rfl,
   (analyzeFile_reports_each_error (demoLint true) "/broken.php" [] demoBrokenParser []
      (.Other "Root" ⟨0, 9⟩ []) demoRootWalker rfl rfl).1,
   rfl⟩

/-! ## The producers -/

theorem readChangesLoop_all_readable (env : LintEnv) (dir : String) (changes : List Change)
    (hall : ∀ x ∈ changes, eligible env x = true →
      ∃ contents, env.ReadFile (env.Join dir x.NewName) = .ok contents)
    (r : ProducerRun) :
    readChangesLoop env dir changes r =
      { r with emitted := r.emitted ++ readableFiles env dir changes } := by
  induction changes generalizing r with
  | nil => simp [readChangesLoop, readableFiles]
  | cons c rest ih =>
    have hrest := ih (fun x hx => hall x (List.mem_cons_of_mem _ hx))
    unfold readChangesLoop
    by_cases hdel : c.Typ = ChangeType.Deleted
    · simp [hdel, hrest, readableFiles, eligible]
    · by_cases hphp : isPHPExtension env c.NewName = true
      · obtain ⟨contents, hread⟩ := hall c (List.mem_cons_self _ _) (by simp [eligible, hdel, hphp])
        simp [hdel, hphp, hread, hrest, readableFiles, eligible]
      · simp [hdel, hphp, hrest, readableFiles, eligible]

theorem readChangesLoop_fatal (env : LintEnv) (dir : String) (pre post : List Change)
    (c : Change) (err : String)
    (hpre : ∀ x ∈ pre, eligible env x = true →
      ∃ contents, env.ReadFile (env.Join dir x.NewName) = .ok contents)
    (hc : eligible env c = true)
    (herr : env.ReadFile (env.Join dir c.NewName) = .error err)
    (r : ProducerRun) :
    readChangesLoop env dir (pre ++ c :: post) r =
      { emitted := r.emitted ++ readableFiles env dir pre,
        log := r.log ++ ["Could not read file " ++ env.Join dir c.NewName ++ ": " ++ err],
        exited := true } := by
  induction pre generalizing r with
  | nil =>
    simp only [eligible, Bool.and_eq_true, decide_eq_true_eq] at hc
    simp [readChangesLoop, readableFiles, hc.1, hc.2, herr]
  | cons x rest ih =>
    have hrest := ih (fun y hy => hpre y (List.mem_cons_of_mem _ hy))
    simp only [List.cons_append]
    unfold readChangesLoop
    by_cases hdel : x.Typ = ChangeType.Deleted
    · simp [hdel, hrest, readableFiles, eligible]
    · by_cases hphp : isPHPExtension env x.NewName = true
      · obtain ⟨contents, hread⟩ := hpre x (List.mem_cons_self _ _) (by simp [eligible, hdel, hphp])
        simp [hdel, hphp, hread, hrest, readableFiles, eligible]
      · simp [hdel, hphp, hrest, readableFiles, eligible]

/-- C10, as the code has it: the producer of `ReadChangesFromWorkTree` ends
the run at the first eligible change (not deleted, PHP extension) whose file
cannot be read. It logs `Could not read file`, the process exits, and the
channel has received, in list order, exactly the eligible files listed
before the unreadable one and none listed after it. When every eligible
file can be read the producer sends them all, in list order, and the run
goes on. -/
theorem ReadChangesFromWorkTree_unreadable_is_fatal (env : LintEnv) (dir : String)
    (pre post : List Change) (c : Change) (err : String)
    (hpre : ∀ x ∈ pre, eligible env x = true →
      ∃ contents, env.ReadFile (env.Join dir x.NewName) = .ok contents)
    (hc : eligible env c = true)
    (herr : env.ReadFile (env.Join dir c.NewName) = .error err) :
    ReadChangesFromWorkTree env dir (pre ++ c :: post) =
      { emitted := readableFiles env dir pre,
        log := ["Could not read file " ++ env.Join dir c.NewName ++ ": " ++ err],
        exited := true } ∧
    (∀ changes : List Change,
      (∀ x ∈ changes, eligible env x = true →
        ∃ contents, env.ReadFile (env.Join dir x.NewName) = .ok contents) →
      ReadChangesFromWorkTree env dir changes =
        { emitted := readableFiles env dir changes, log := [], exited := false }) := by
  constructor
  · unfold ReadChangesFromWorkTree
    rw [readChangesLoop_fatal env dir pre post c err hpre hc herr]
    simp
  · intro changes hall
    unfold ReadChangesFromWorkTree
    rw [readChangesLoop_all_readable env dir changes hall]
    simp

/-- C10 as amended, on a work tree where `c.php` is read and sent, `a.php`
cannot be read, and `b.php` after it is never reached. -/
theorem ReadChangesFromWorkTree_unreadable_is_fatal_witness :
    ReadChangesFromWorkTree (demoLint true) "/repo"
      ([{ Typ := .Added, OldName := "", NewName := "c.php" }] ++
        { Typ := .Changed, OldName := "a.php", NewName := "a.php" } ::
        [{ Typ := .Changed, OldName := "b.php", NewName := "b.php" }]) =
      { emitted := readableFiles (demoLint true) "/repo"
          [{ Typ := .Added, OldName := "", NewName := "c.php" }],
        log := ["Could not read file " ++ (demoLint true).Join "/repo" "a.php" ++ ": " ++
          "open /repo/a.php: permission denied"],
        exited := true } ∧
    readableFiles (demoLint true) "/repo" [{ Typ := .Added, OldName := "", NewName := "c.php" }]
      = [{ Filename := "/repo/c.php", Contents := some [60, 63] }] :=
  ⟨(ReadChangesFromWorkTree_unreadable_is_fatal (demoLint true) "/repo"
      [{ Typ := .Added, OldName := "", NewName := "c.php" }]
      [{ Typ := .Changed, OldName := "b.php", NewName := "b.php" }]
      { Typ := .Changed, OldName := "a.php", NewName := "a.php" }
      "open /repo/a.php: permission denied"
      (by intro x hx _; simp at hx; subst hx; exact ⟨[60, 63], rfl⟩) (by decide) rfl).1,
   by decide⟩

/-- C10 fails as stated: `a.php` cannot be read, `b.php` after it is
eligible and readable, yet the run is ended and `b.php` is not sent. -/
theorem ReadChangesFromWorkTree_stops_at_unreadable :
    eligible (demoLint true) { Typ := .Changed, OldName := "b.php", NewName := "b.php" } = true ∧
    (demoLint true).ReadFile ((demoLint true).Join "/repo" "b.php") = .ok [60, 63] ∧
    (ReadChangesFromWorkTree (demoLint true) "/repo" demoChanges).exited = true ∧
    (ReadChangesFromWorkTree (demoLint true) "/repo" demoChanges).emitted = [] ∧
    ¬ ((ReadChangesFromWorkTree (demoLint true) "/repo" demoChanges).exited = false ∧
        ({ Filename := "/repo/b.php", Contents := some [60, 63] } : FileInfo) ∈
          (ReadChangesFromWorkTree (demoLint true) "/repo" demoChanges).emitted) := by
  refine ⟨by decide, rfl, by decide, by decide, ?_⟩
  intro h
  exact absurd h.1 (by decide)

/-! ## The parse state of the hover walker -/

theorem LeaveNode_of_selected (env : Env) (d : hoverWalker) (n m : Node) (h : d.n = some m) :
    d.LeaveNode env n = d := by
  simp [hoverWalker.LeaveNode, h]

theorem LeaveNode_st_of_none (env : Env) (d : hoverWalker) (n : Node) (h : d.n = none) :
    (d.LeaveNode env n).st = env.stateLeaveNode d.st n := by
  unfold hoverWalker.LeaveNode
  cases hk : isHoverKind n <;> cases ho : outside d.position n.GetPosition <;> simp [h, hk, ho]

theorem WalkAll_restores (env : Env) (cs : List Node)
    (hcs : ∀ c ∈ cs, ∀ d : hoverWalker, d.n = none →
      c.subtree.find? (hoverMatch d.position) = none → (c.Walk env d).st = d.st) :
    ∀ d : hoverWalker, d.n = none →
      (Node.subtrees cs).find? (hoverMatch d.position) = none →
      (Node.WalkAll env cs d).st = d.st ∧ (Node.WalkAll env cs d).n = none := by
  induction cs with
  | nil => intro d hn _; exact ⟨rfl, hn⟩
  | cons c rest ih =>
    intro d hn hnone
    simp only [Node.subtrees, List.find?_append, Option.or_eq_none] at hnone
    have hc := hcs c (List.mem_cons_self _ _) d hn hnone.1
    have hspec := Walk_spec env c d
    have hn1 : (c.Walk env d).n = none := by rw [hspec.2, hn, hnone.1]; rfl
    have hr := ih (fun c' hc' => hcs c' (List.mem_cons_of_mem _ hc')) (c.Walk env d) hn1
      (by rw [hspec.1]; exact hnone.2)
    simp only [Node.WalkAll]
    exact ⟨by rw [hr.1, hc], hr.2⟩

/-- While no target is selected, the walk of a subtree that selects none
below its root gives back the parse state it started with, when
`state.LeaveNode` undoes `state.EnterNode`. -/
theorem Walk_restores (env : Env)
    (hbal : ∀ st n, env.stateLeaveNode (env.stateEnterNode st n) n = st) (n : Node) :
    ∀ d : hoverWalker, d.n = none →
      (Node.subtrees n.children).find? (hoverMatch d.position) = none →
      (n.Walk env d).st = d.st := by
  induction n using Node.induct with
  | step n ih =>
    intro d hn hnone
    have hall := WalkAll_restores env n.children
      (fun c hc d' hn' hnone' => ih c hc d' hn' (by
        rw [Node.subtree_eq, List.find?_append, Option.or_eq_none] at hnone'
        exact hnone'.1))
      (d.EnterNode env n).1 hn hnone
    rw [Node.Walk_eq, LeaveNode_st_of_none env _ n hall.2, hall.1]
    exact hbal d.st n

theorem stackEnv_balanced (st : ClassParseState) (n : Node) :
    stackEnv.stateLeaveNode (stackEnv.stateEnterNode st n) n = st := by
  unfold stackEnv
  simp only
  split <;> simp

/-- C11, a defect of the code: the hover walker does not keep the stack
discipline once the target is found. `hoverWalker.EnterNode` applies
`state.EnterNode` at every node, before and after the target, but
`hoverWalker.LeaveNode` returns before `state.LeaveNode` once a target is
selected, while `definitionWalker.LeaveNode` applies `state.LeaveNode` at
every node. With a parse state kept as a stack that `state.LeaveNode`
restores, a hover query at offset 11 on a file with two classes selects the
call inside the first class: the first class is then left without being
popped, the second class is pushed and not popped, and the walk ends with two
classes on the stack instead of the empty state it started with. On the first
class alone the walk ends with that class on the stack. A query at offset 25,
between the classes, selects nothing and ends with the empty state. -/
theorem hoverWalker_state_unbalanced :
    (∀ st n, stackEnv.stateLeaveNode (stackEnv.stateEnterNode st n) n = st) ∧
    (∀ (env : Env) (d : hoverWalker) (n : Node),
      (d.EnterNode env n).1.st = env.stateEnterNode d.st n) ∧
    (∀ (env : Env) (d : hoverWalker) (n : Node),
      (d.LeaveNode env n).st = if d.n.isSome then d.st else env.stateLeaveNode d.st n) ∧
    (∀ (env : Env) (d : definitionWalker) (n : Node),
      (d.LeaveNode env n).st = env.stateLeaveNode d.st n) ∧
    (hoverWalk stackEnv demoTwoClasses 11 emptyState).n.isSome = true ∧
    (hoverWalk stackEnv demoTwoClasses 11 emptyState).st =
      { Namespace := "", Classes := ["C", "C"], Uses := [] } ∧
    (hoverWalk stackEnv demoTwoClasses 11 emptyState).st ≠ emptyState ∧
    (hoverWalk stackEnv demoClassTree 11 emptyState).n.isSome = true ∧
    (hoverWalk stackEnv demoClassTree 11 emptyState).st =
      { Namespace := "", Classes := ["C"], Uses := [] } ∧
    (hoverWalk stackEnv demoTwoClasses 25 emptyState).n.isSome = false ∧
    (hoverWalk stackEnv demoTwoClasses 25 emptyState).st = emptyState := by
  refine ⟨stackEnv_balanced, fun _ _ _ => rfl, ?_, ?_, rfl, rfl, by decide, rfl, rfl, rfl, rfl⟩
  · intro env d n
    cases h : d.n with
    | none => simpa [h] using LeaveNode_st_of_none env d n h
    | some m => simp [LeaveNode_of_selected env d n m h]
  · intro env d n
    simp only [definitionWalker.LeaveNode]
    split <;> rfl

/-! ## The run of `ParseFilenames` -/

theorem doParseFile_returns (env : LintEnv) (f : FileInfo) (needReports : Bool) :
    ∃ r, doParseFile env f needReports = .ret r := by
  cases needReports with
  | false => simp [doParseFile]
  | true =>
    unfold doParseFile
    simp only [if_true]
    cases hp : ParseContents env f.Filename f.Contents f.LineRanges with
    | panicked r =>
      unfold ParseContents at hp
      cases hb : ParseContentsBody env f.Filename f.Contents f.LineRanges <;> simp [hb] at hp
    | ret r =>
      obtain ⟨root, w, err⟩ := r
      cases err with
      | some e => simp [Outcome.andThen]
      | none =>
        obtain ⟨w1, hw⟩ := ParseContents_nil_error env _ _ _ root w hp
        subst hw
        simp [Outcome.andThen]

theorem PoolInv_init (env : LintEnv) (N : Nat) (files : List FileInfo) :
    PoolInv env N files (poolInit N files) := by
  refine ⟨?_, ?_, ?_, ?_, ?_, ?_, ?_, ?_, ?_⟩
  · simp [poolInit, List.filter_replicate]
  · simp [poolInit]
  · intro h; simp [poolInit] at h
  · intro w hw hd
    simp [poolInit, List.mem_replicate] at hw
    rw [hw.2] at hd; simp at hd
  · have : (List.replicate N ({ received := [], rep := [], done := false } : Worker)).flatMap
        (fun w => w.received) = [] := by
      induction N with
      | zero => rfl
      | succ k ih => simp [List.replicate_succ, ih]
    simp [poolInit, List.filter_replicate, this]
  · intro w hw
    simp [poolInit, List.mem_replicate] at hw
    rw [hw.2]; rfl
  · rfl
  · simp [poolInit]
  · intro rs h; simp [poolInit] at h

theorem fileReports_of_ret (env : LintEnv) (b : Bool) (f : FileInfo)
    (r : List Report × List String) (h : doParseFile env f b = .ret r) :
    fileReports env b f = r.1 := by
  simp [fileReports, h]

theorem PoolInv_step (env : LintEnv) (N : Nat) (files : List FileInfo) (s s' : PoolState)
    (hinv : PoolInv env N files s) (hstep : PoolStep env env.IsIndexingComplete s s') :
    PoolInv env N files s' := by
  obtain ⟨hcount, hlen, hcp, hdc, hshared, hreps, hchan, hcalled, hret⟩ := hinv
  cases hstep with
  | receive ws1 ws2 w f rest r hp hw hd hr =>
    have hnotclosed : s.closed = false := by
      cases hc : s.closed with
      | false => rfl
      | true => rw [hcp hc] at hp; simp at hp
    refine ⟨?_, ?_, ?_, ?_, ?_, ?_, ?_, ?_, ?_⟩
    · simpa [hw, hd, List.filter_append, List.filter_cons] using hcount
    · simpa [hw] using hlen
    · intro hc; simp [hnotclosed] at hc
    · intro x hx hxd
      simp only [List.mem_append, List.mem_cons] at hx
      rcases hx with hx | hx | hx
      · exact hdc x (by rw [hw]; simp [hx]) hxd
      · rw [hx] at hxd; simp [hd] at hxd
      · exact hdc x (by rw [hw]; simp [hx]) hxd
    · refine List.Perm.trans ?_ hshared
      simp only [hw, hp, hd, List.filter_append, List.filter_cons, List.flatMap_append,
        List.flatMap_cons, Bool.not_false, if_true]
      rw [← Multiset.coe_eq_coe]
      simp only [← Multiset.coe_add, ← Multiset.singleton_add, ← Multiset.cons_coe]
      abel
    · intro x hx
      simp only [List.mem_append, List.mem_cons] at hx
      rcases hx with hx | hx | hx
      · exact hreps x (by rw [hw]; simp [hx])
      · rw [hx]
        simp only [List.flatMap_append, List.flatMap_cons, List.flatMap_nil, List.append_nil]
        rw [← hreps w (by rw [hw]; simp), fileReports_of_ret env _ f r hr]
      · exact hreps x (by rw [hw]; simp [hx])
    · exact hchan
    · constructor
      · simp only [List.map_append, List.map_cons, List.map_nil, List.append_assoc,
          List.singleton_append]
        rw [← hp]; exact hcalled.1
      · intro c hc
        simp only [List.mem_append, List.mem_singleton] at hc
        rcases hc with hc | hc
        · exact hcalled.2 c hc
        · rw [hc]
    · intro rs hrs
      obtain ⟨h1, h2⟩ := hret rs hrs
      have := hdc w (by rw [hw]; simp) (h2 w (by rw [hw]; simp))
      rw [hnotclosed] at this; simp at this
  | close hp hc =>
    refine ⟨hcount, hlen, ?_, ?_, hshared, hreps, hchan, hcalled, hret⟩
    · intro _; exact hp
    · intro _ _ _; rfl
  | deliver ws1 ws2 w hc hw hd =>
    refine ⟨?_, ?_, ?_, ?_, ?_, ?_, ?_, ?_, ?_⟩
    · have := hcount
      simp only [hw, hd, List.filter_append, List.filter_cons, Bool.not_false, if_true,
        List.length_append, List.length_cons] at this
      simp only [List.filter_append, List.filter_cons, Bool.not_true, List.length_append,
        List.length_cons, List.length_nil]
      simp
      omega
    · simpa [hw] using hlen
    · exact hcp
    · intro _ _ _; exact hc
    · refine List.Perm.trans ?_ hshared
      simp only [hw, hd, List.filter_append, List.filter_cons, List.flatMap_append,
        List.flatMap_cons, Bool.not_false, Bool.not_true, if_true, List.flatten_append,
        List.flatten_cons, List.flatten_nil, List.append_nil]
      simp only [Bool.false_eq_true, if_false]
      rw [← Multiset.coe_eq_coe]
      simp only [← Multiset.coe_add]
      abel
    · intro x hx
      simp only [List.mem_append, List.mem_cons] at hx
      rcases hx with hx | hx | hx
      · exact hreps x (by rw [hw]; simp [hx])
      · rw [hx]; exact hreps w (by rw [hw]; simp)
      · exact hreps x (by rw [hw]; simp [hx])
    · simp only [List.map_append, List.map_cons, List.map_nil]
      rw [← hchan, ← hreps w (by rw [hw]; simp)]
    · exact hcalled
    · intro rs hrs
      obtain ⟨h1, h2⟩ := hret rs hrs
      have := h2 w (by rw [hw]; simp)
      rw [hd] at this; simp at this
  | collect hall hnone =>
    refine ⟨hcount, hlen, hcp, hdc, hshared, hreps, hchan, hcalled, ?_⟩
    intro rs hrs
    simp only [Option.some.injEq] at hrs
    exact ⟨hrs.symm, hall⟩

theorem PoolInv_reach (env : LintEnv) (N : Nat) (files : List FileInfo) (s : PoolState)
    (h : PoolReach env N files s) : PoolInv env N files s := by
  unfold PoolReach at h
  induction h with
  | refl => exact PoolInv_init env N files
  | tail _ hstep ih => exact PoolInv_step env N files _ _ ih hstep

theorem PoolStep_measure (env : LintEnv) (b : Bool) (s s' : PoolState)
    (h : PoolStep env b s s') : poolMeasure s' + 1 = poolMeasure s := by
  cases h with
  | receive ws1 ws2 w f rest r hp hw hd hr =>
    simp [poolMeasure, hp, hw, hd, List.filter_append, List.filter_cons]
    omega
  | close hp hc =>
    simp [poolMeasure, hc]
    omega
  | deliver ws1 ws2 w hc hw hd =>
    simp [poolMeasure, hw, hd, List.filter_append, List.filter_cons]
    omega
  | collect hall hnone => simp [poolMeasure, hnone]

theorem PoolStep_progress (env : LintEnv) (N : Nat) (hN : 1 ≤ N) (files : List FileInfo)
    (s : PoolState) (hinv : PoolInv env N files s) (hnone : s.returned = none) :
    ∃ s', PoolStep env env.IsIndexingComplete s s' := by
  obtain ⟨hcount, hlen, hcp, hdc, hshared, hreps, hchan, hcalled, hret⟩ := hinv
  cases hp : s.pending with
  | cons f rest =>
    have hnotclosed : s.closed = false := by
      cases hc : s.closed with
      | false => rfl
      | true => rw [hcp hc] at hp; simp at hp
    obtain ⟨w, ws, hws⟩ := List.exists_cons_of_length_pos (l := s.workers) (by omega)
    have hd : w.done = false := by
      cases hd : w.done with
      | false => rfl
      | true =>
        have := hdc w (by rw [hws]; simp) hd
        rw [hnotclosed] at this; simp at this
    obtain ⟨r, hr⟩ := doParseFile_returns env f env.IsIndexingComplete
    exact ⟨_, PoolStep.receive s [] ws w f rest r hp (by simpa using hws) hd hr⟩
  | nil =>
    cases hc : s.closed with
    | false => exact ⟨_, PoolStep.close s hp hc⟩
    | true =>
      by_cases hall : ∀ w ∈ s.workers, w.done = true
      · exact ⟨_, PoolStep.collect s hall hnone⟩
      · push_neg at hall
        obtain ⟨w, hw, hd⟩ := hall
        obtain ⟨ws1, ws2, hws⟩ := List.append_of_mem hw
        exact ⟨_, PoolStep.deliver s ws1 ws2 w hc hws (by simpa using hd)⟩

theorem foldl_ret_append {α β : Type} (g : β → List α)
    (step : Outcome (List α) → β → Outcome (List α))
    (hstep : ∀ acc b, step (.ret acc) b = .ret (acc ++ g b)) (l : List β) (acc : List α) :
    l.foldl step (.ret acc) = .ret (acc ++ l.flatMap g) := by
  induction l generalizing acc with
  | nil => simp
  | cons b rest ih => simp [List.foldl_cons, hstep, ih]

theorem workerReports_eq (env : LintEnv) (b : Bool) (files : List FileInfo) :
    workerReports env b files = .ret (files.flatMap (fileReports env b)) := by
  unfold workerReports
  rw [foldl_ret_append (fileReports env b)]
  · simp
  · intro acc f
    obtain ⟨r, hr⟩ := doParseFile_returns env f b
    simp [Outcome.andThen, hr, fileReports]

theorem ParseFilenames_eq (env : LintEnv) (batches : List (List FileInfo)) :
    ParseFilenames env batches =
      .ret (batches.flatMap fun b => b.flatMap (fileReports env env.IsIndexingComplete)) := by
  unfold ParseFilenames
  rw [foldl_ret_append (fun b => b.flatMap (fileReports env env.IsIndexingComplete))]
  · simp
  · intro acc b
    simp [Outcome.andThen, workerReports_eq]

theorem PoolStep_wf (env : LintEnv) (b : Bool) :
    WellFounded (fun s' s => PoolStep env b s s') := by
  apply Subrelation.wf (r := InvImage (· < ·) poolMeasure)
  · intro s' s h
    have := PoolStep_measure env b s s' h
    show poolMeasure s' < poolMeasure s
    omega
  · exact InvImage.wf poolMeasure Nat.lt_wfRel.wf

theorem PoolReach_returns (env : LintEnv) (N : Nat) (hN : 1 ≤ N) (files : List FileInfo) :
    ∀ (k : Nat) (s : PoolState), poolMeasure s = k → PoolReach env N files s →
      ∃ s' rs, PoolReach env N files s' ∧ s'.returned = some rs := by
  intro k
  induction k with
  | zero =>
    intro s hk hreach
    cases hr : s.returned with
    | some rs => exact ⟨s, rs, hreach, hr⟩
    | none => simp [poolMeasure, hr] at hk
  | succ k ih =>
    intro s hk hreach
    cases hr : s.returned with
    | some rs => exact ⟨s, rs, hreach, hr⟩
    | none =>
      obtain ⟨s', hstep⟩ := PoolStep_progress env N hN files s
        (PoolInv_reach env N files s hreach) hr
      have hm := PoolStep_measure env _ s s' hstep
      exact ih s' (by omega) (Relation.ReflTransGen.tail hreach hstep)

theorem PoolStep_none_of_returned (env : LintEnv) (N : Nat) (hN : 1 ≤ N) (files : List FileInfo)
    (s : PoolState) (rs : List Report) (hinv : PoolInv env N files s)
    (hrs : s.returned = some rs) : ¬ ∃ s', PoolStep env env.IsIndexingComplete s s' := by
  obtain ⟨hcount, hlen, hcp, hdc, hshared, hreps, hchan, hcalled, hret⟩ := hinv
  obtain ⟨_, hall⟩ := hret rs hrs
  obtain ⟨w, ws, hws⟩ := List.exists_cons_of_length_pos (l := s.workers) (by omega)
  have hclosed : s.closed = true := hdc w (by rw [hws]; simp) (hall w (by rw [hws]; simp))
  rintro ⟨s', hstep⟩
  cases hstep with
  | receive ws1 ws2 w' f rest r hp hw hd hr => rw [hcp hclosed] at hp; simp at hp
  | close hp hc => rw [hclosed] at hc; simp at hc
  | deliver ws1 ws2 w' hc hw hd =>
    have := hall w' (by rw [hw]; simp)
    rw [hd] at this; simp at this
  | collect hall' hnone => rw [hrs] at hnone; simp at hnone

/-- C12: a run of `ParseFilenames` with at least one worker over the files
the producer sends. Every run is finite; as long as the function has not
returned some goroutine can take a step, so every run goes on until it
returns, and it can return. When it has returned, `doParseFile` has been
called once for each file sent, each time with the value of
`IsIndexingComplete` read at entry; the list returned is, up to order, the
reports of these calls taken together; it is what `ParseFilenames` gives
for the batches the workers received; and no goroutine has a step left. -/
theorem ParseFilenames_processes_all (env : LintEnv) (MaxConcurrency : Nat)
    (files : List FileInfo) (hN : 1 ≤ MaxConcurrency) :
    WellFounded (fun s' s => PoolStep env env.IsIndexingComplete s s') ∧
    (∀ s, PoolReach env MaxConcurrency files s → s.returned = none →
      ∃ s', PoolStep env env.IsIndexingComplete s s') ∧
    (∃ s rs, PoolReach env MaxConcurrency files s ∧ s.returned = some rs) ∧
    (∀ f, ∃ log, doParseFile env f env.IsIndexingComplete =
      .ret (fileReports env env.IsIndexingComplete f, log)) ∧
    (∀ s rs, PoolReach env MaxConcurrency files s → s.returned = some rs →
      s.calls.Perm (files.map fun f => (f, env.IsIndexingComplete)) ∧
      rs.Perm (files.flatMap (fileReports env env.IsIndexingComplete)) ∧
      s.batches.length = MaxConcurrency ∧ s.batches.flatten.Perm files ∧
      ParseFilenames env s.batches = .ret rs ∧
      ¬ ∃ s', PoolStep env env.IsIndexingComplete s s') := by
  refine ⟨PoolStep_wf env _, ?_, ?_, ?_, ?_⟩
  · intro s hreach hnone
    exact PoolStep_progress env MaxConcurrency hN files s
      (PoolInv_reach env MaxConcurrency files s hreach) hnone
  · exact PoolReach_returns env MaxConcurrency hN files _ _ rfl Relation.ReflTransGen.refl
  · intro f
    obtain ⟨r, hr⟩ := doParseFile_returns env f env.IsIndexingComplete
    exact ⟨r.2, by rw [fileReports_of_ret env _ f r hr, hr]⟩
  · intro s rs hreach hrs
    have hinv := PoolInv_reach env MaxConcurrency files s hreach
    have hterm := PoolStep_none_of_returned env MaxConcurrency hN files s rs hinv hrs
    obtain ⟨hcount, hlen, hcp, hdc, hshared, hreps, hchan, hcalled, hret⟩ := hinv
    obtain ⟨hrs_eq, hall⟩ := hret rs hrs
    obtain ⟨w, ws, hws⟩ := List.exists_cons_of_length_pos (l := s.workers) (by omega)
    have hclosed : s.closed = true := hdc w (by rw [hws]; simp) (hall w (by rw [hws]; simp))
    have hpend : s.pending = [] := hcp hclosed
    have hundone : (s.workers.filter fun w => !w.done) = [] := by
      rw [List.filter_eq_nil_iff]
      intro x hx
      simp [hall x hx]
    have hbatches : s.batches.flatten.Perm files := by
      simpa [hundone, hpend] using hshared
    have hflat : rs = s.batches.flatMap
        (fun b => b.flatMap (fileReports env env.IsIndexingComplete)) := by
      rw [hrs_eq, hchan, List.flatMap_def]
    refine ⟨?_, ?_, ?_, hbatches, ?_, hterm⟩
    · have h1 := hcalled.1
      rw [hpend, List.append_nil] at h1
      have h2 : s.calls = files.map fun f => (f, env.IsIndexingComplete) := by
        rw [← h1, List.map_map]
        conv_lhs => rw [← List.map_id s.calls]
        apply List.map_congr_left
        intro c hc
        simp [← hcalled.2 c hc]
      rw [h2]
    · rw [hflat]
      have : (s.batches.flatMap fun b => b.flatMap (fileReports env env.IsIndexingComplete))
          = s.batches.flatten.flatMap (fileReports env env.IsIndexingComplete) := by
        rw [List.flatten_eq_flatMap, List.flatMap_assoc]
        rfl
      rw [this]
      exact List.Perm.flatMap_right _ hbatches
    · simpa [hundone] using hcount
    · rw [ParseFilenames_eq, hflat]

/-- C12 with two workers and two files: a run returns, and whatever it
returns holds the two reports of `/broken.php` and nothing else. -/
theorem ParseFilenames_processes_all_witness :
    (1 ≤ 2) ∧
    (∃ s rs, PoolReach (demoLint true) 2 demoFiles s ∧ s.returned = some rs) ∧
    (∀ s rs, PoolReach (demoLint true) 2 demoFiles s → s.returned = some rs →
      rs.Perm [⟨1, "syntax", "Syntax error: syntax error: unexpected T_STRING at line 3"⟩,
               ⟨1, "syntax", "Syntax error: syntax error: unexpected T_ELSE at line 8"⟩]) :=
  have h := ParseFilenames_processes_all (demoLint true) 2 demoFiles (by decide)
  ⟨by decide, h.2.2.1, fun s rs hreach hrs => (h.2.2.2.2 s rs hreach hrs).2.1⟩

/-! ## The ternary rule of the resolver -/

theorem typeOf_assign (sc : Scope) (name : String) (e : Expr) :
    (sc.assign name e).typeOf name = inferType sc e := by
  simp [Scope.assign, Scope.typeOf, List.find?]

/-- In the resolver as the spec describes it, after
`$v = cond ? new A : new B` with two distinct classes `A` and `B` the TypeSet
of `$v` has exactly the two members `A` and `B`, whatever the variable held
before and whatever the condition is. -/
theorem ternary_assignment_types (sc : Scope) (v : String) (cond : Expr) (A B : String)
    (hAB : A ≠ B) :
    (sc.assign v (.Ternary cond (.New A) (.New B))).typeOf v = [A, B] ∧
    ((sc.assign v (.Ternary cond (.New A) (.New B))).typeOf v).Nodup ∧
    ((sc.assign v (.Ternary cond (.New A) (.New B))).typeOf v).length = 2 ∧
    (∀ t, t ∈ (sc.assign v (.Ternary cond (.New A) (.New B))).typeOf v ↔ t = A ∨ t = B) := by
  have hty : (sc.assign v (.Ternary cond (.New A) (.New B))).typeOf v = [A, B] := by
    rw [typeOf_assign]
    simp only [inferType, typeSetUnion, List.singleton_append]
    rw [List.dedup_cons_of_not_mem (by simpa using hAB)]
    rfl
  rw [hty]
  exact ⟨rfl, by simpa using hAB, rfl, by simp⟩

/-- On the assignment of `TestArrayAccessForClass`, `$a` holds `three` and
`five`. -/
theorem ternary_assignment_types_example :
    (({ vars := [] } : Scope).assign "a"
        (.Ternary .Unsupported (.New "three") (.New "five"))).typeOf "a" = ["three", "five"] := by
  decide

/-! ## The two outcomes of `analyzeFile` -/

theorem walkSteps_keepsFile (env : LintEnv) (hkeep : env.keepsFile) (filename : String)
    (contents : List UInt8) (parser : Parser) (lineRanges : List LineRange) (rootNode : Node)
    (w5 : RootWalker)
    (h : walkSteps env filename contents parser lineRanges rootNode = .ret w5) :
    w5.filename = filename ∧ w5.lineRanges = lineRanges := by
  obtain ⟨hinit, hcustom, hwalk, hblock, hafter, _⟩ := hkeep
  unfold walkSteps at h
  obtain ⟨w1, h1, h⟩ := andThen_eq_ret _ _ _ h
  obtain ⟨w2, h2, h⟩ := andThen_eq_ret _ _ _ h
  obtain ⟨w3, h3, h⟩ := andThen_eq_ret _ _ _ h
  obtain ⟨w4, h4, h⟩ := andThen_eq_ret _ _ _ h
  have k1 := hinit contents parser _ _ h1
  have k2 := hcustom _ _ h2
  have k3 := hwalk rootNode _ _ h3
  have k5 := hafter _ _ h
  have k4 : w4.filename = w3.filename ∧ w4.lineRanges = w3.lineRanges := by
    by_cases hc : env.IsIndexingComplete = true
    · simp only [hc, if_true] at h4
      exact hblock _ rootNode _ _ h4
    · simp only [hc] at h4
      simp only [Bool.false_eq_true, if_false, Outcome.ret.injEq] at h4
      rw [h4]; exact ⟨rfl, rfl⟩
  simp only at k1
  exact ⟨by rw [k5.1, k4.1, k3.1, k2.1, k1.1], by rw [k5.2, k4.2, k3.2, k2.2, k1.2]⟩

theorem reportErrors_keepsFile (env : LintEnv) (hkeep : env.keepsFile)
    (errors : List ParseError) (w : RootWalker) :
    (reportErrors env errors w).filename = w.filename ∧
    (reportErrors env errors w).lineRanges = w.lineRanges := by
  unfold reportErrors
  induction errors generalizing w with
  | nil => exact ⟨rfl, rfl⟩
  | cons e rest ih =>
    simp only [List.foldl_cons]
    have h1 := ih (env.Report w none env.LevelError "syntax" ("Syntax error: " ++ e.String))
    have h2 := hkeep.2.2.2.2.2 w none env.LevelError "syntax" ("Syntax error: " ++ e.String)
    exact ⟨by rw [h1.1, h2.1], by rw [h1.2, h2.2]⟩

/-- C14: `analyzeFile` fails exactly on a missing root. With a nil root it
returns a nil root, a nil walker and the error `Empty root node`, whatever
the walker methods would do: none of them runs. With a root, when the walk
does not panic, it returns that root, a walker and a nil error; the walker
is the one created with the given file name and line ranges, and it still
carries them when the walker methods leave these two fields alone. Whenever
`analyzeFile` returns, its error is non-nil if and only if the root is
nil. -/
theorem analyzeFile_fails_on_missing_root (env : LintEnv) (filename : String)
    (contents : List UInt8) (parser : Parser) (lineRanges : List LineRange) :
    (parser.GetRootNode = none →
      analyzeFile env filename contents parser lineRanges =
        .ret (none, none, some "Empty root node")) ∧
    (∀ rootNode w5, parser.GetRootNode = some rootNode →
      walkSteps env filename contents parser lineRanges rootNode = .ret w5 →
      analyzeFile env filename contents parser lineRanges =
        .ret (some rootNode, some (reportErrors env parser.GetErrors w5), none) ∧
      (env.keepsFile →
        (reportErrors env parser.GetErrors w5).filename = filename ∧
        (reportErrors env parser.GetErrors w5).lineRanges = lineRanges)) ∧
    (∀ res, analyzeFile env filename contents parser lineRanges = .ret res →
      (res.2.2.isSome = true ↔ parser.GetRootNode = none) ∧
      (res.2.1.isSome = true ↔ res.2.2 = none) ∧
      res.1 = parser.GetRootNode) := by
  refine ⟨?_, ?_, ?_⟩
  · intro hroot
    simp [analyzeFile, hroot]
  · intro rootNode w5 hroot hwalk
    constructor
    · rw [analyzeFile_eq env filename contents parser lineRanges rootNode hroot, hwalk]
      rfl
    · intro hkeep
      have h1 := walkSteps_keepsFile env hkeep filename contents parser lineRanges rootNode w5 hwalk
      have h2 := reportErrors_keepsFile env hkeep parser.GetErrors w5
      exact ⟨by rw [h2.1, h1.1], by rw [h2.2, h1.2]⟩
  · intro res hres
    cases hroot : parser.GetRootNode with
    | none =>
      simp only [analyzeFile, hroot, Outcome.ret.injEq] at hres
      subst hres
      simp
    | some rootNode =>
      rw [analyzeFile_eq env filename contents parser lineRanges rootNode hroot] at hres
      obtain ⟨w5, _, hres⟩ := andThen_eq_ret _ _ _ hres
      simp only [Outcome.ret.injEq] at hres
      subst hres
      simp

theorem demoLint_keepsFile (b : Bool) : (demoLint b).keepsFile := by
  refine ⟨?_, ?_, ?_, ?_, ?_, ?_⟩
  · intro contents parser w w1 h
    simp only [demoLint, Outcome.ret.injEq] at h
    subst h; exact ⟨rfl, rfl⟩
  · intro w w1 h
    simp only [demoLint, Outcome.ret.injEq] at h
    subst h; exact ⟨rfl, rfl⟩
  · intro rootNode w w1 h
    simp only [demoLint] at h
    split at h
    · simp at h
    · simp only [Outcome.ret.injEq] at h
      subst h; exact ⟨rfl, rfl⟩
  · intro sc rootNode w w1 h
    simp only [demoLint, Outcome.ret.injEq] at h
    subst h; exact ⟨rfl, rfl⟩
  · intro w w1 h
    simp only [demoLint, Outcome.ret.injEq] at h
    subst h; exact ⟨rfl, rfl⟩
  · intro w n level checkName msg
    exact ⟨rfl, rfl⟩

/-- C14 on two parser states: one without a root, and the one of
`/broken.php`, whose walker comes back with the file name and the line
ranges it was given. -/
theorem analyzeFile_fails_on_missing_root_witness :
    analyzeFile (demoLint true) "/empty.php" [] ⟨none, [⟨"syntax error: unexpected $end"⟩]⟩ []
      = .ret (none, none, some "Empty root node") ∧
    analyzeFile (demoLint true) "/broken.php" [] demoBrokenParser [⟨3, 8⟩]
      = .ret (some (.Other "Root" ⟨0, 9⟩ []),
          some (reportErrors (demoLint true) demoBrokenParser.GetErrors
            { demoRootWalker with lineRanges := [⟨3, 8⟩] }), none) ∧
    (reportErrors (demoLint true) demoBrokenParser.GetErrors
        { demoRootWalker with lineRanges := [⟨3, 8⟩] }).filename = "/broken.php" ∧
    (reportErrors (demoLint true) demoBrokenParser.GetErrors
        { demoRootWalker with lineRanges := [⟨3, 8⟩] }).lineRanges = [⟨3, 8⟩] :=
  have h1 := analyzeFile_fails_on_missing_root (demoLint true) "/empty.php" []
    ⟨none, [⟨"syntax error: unexpected $end"⟩]⟩ []
  have h2 := (analyzeFile_fails_on_missing_root (demoLint true) "/broken.php" []
    demoBrokenParser [⟨3, 8⟩]).2.1 (.Other "Root" ⟨0, 9⟩ [])
    { demoRootWalker with lineRanges := [⟨3, 8⟩] } rfl rfl
  ⟨h1.1 rfl, h2.1, (h2.2 (demoLint_keepsFile true)).1, (h2.2 (demoLint_keepsFile true)).2⟩

/-! ## The two tests of a PHP extension -/

theorem extScan_of_clean (e rest acc : List Char)
    (he : ∀ c ∈ e, c ≠ '.' ∧ c ≠ '/') :
    extScan (e.reverse ++ '.' :: rest) acc = '.' :: (e ++ acc) := by
  induction e using List.reverseRecOn generalizing acc with
  | nil => simp [extScan]
  | append_singleton e c ih =>
    have hc := he c (by simp)
    simp only [List.reverse_append, List.reverse_cons, List.reverse_nil, List.nil_append,
      List.singleton_append, List.cons_append, extScan, hc.1, hc.2, if_false]
    rw [ih (c :: acc) (fun x hx => he x (by simp [hx]))]
    simp

theorem extScan_eq_cons (r acc res : List Char) (h : extScan r acc = res) (hne : res ≠ []) :
    ∃ e rest, r = e.reverse ++ '.' :: rest ∧ (∀ c ∈ e, c ≠ '.' ∧ c ≠ '/') ∧
      res = '.' :: (e ++ acc) := by
  induction r generalizing acc with
  | nil => simp [extScan] at h; exact absurd h hne
  | cons c cs ih =>
    unfold extScan at h
    by_cases h1 : c = '/'
    · simp [h1] at h; exact absurd h hne
    · by_cases h2 : c = '.'
      · simp only [h2] at h
        simp only [show ¬ ('.' = '/') by decide, if_false, if_true] at h
        exact ⟨[], cs, by simp [h2], by simp, by simp [← h]⟩
      · simp only [h1, h2, if_false] at h
        obtain ⟨e, rest, hr, he, hres⟩ := ih (c :: acc) h
        refine ⟨e ++ [c], rest, by simp [hr], ?_, by simp [hres]⟩
        intro x hx
        simp only [List.mem_append, List.mem_singleton] at hx
        rcases hx with hx | hx
        · exact he x hx
        · rw [hx]; exact ⟨h2, h1⟩

/-- The extension `filepath.Ext` finds, as a fact about the characters of
the path: the path ends in `.` followed by characters that are neither `.`
nor `/`, or no extension is found. -/
theorem filepathExt_eq (path : String) (e : List Char) :
    (filepathExt path).toList = '.' :: e ↔
      ∃ pre, path.toList = pre ++ '.' :: e ∧ ∀ c ∈ e, c ≠ '.' ∧ c ≠ '/' := by
  unfold filepathExt
  constructor
  · intro h
    obtain ⟨e', rest, hr, he, hres⟩ := extScan_eq_cons path.toList.reverse [] ('.' :: e)
      (by simpa using h) (by simp)
    simp only [List.append_nil, List.cons.injEq, true_and] at hres
    subst hres
    refine ⟨rest.reverse, ?_, he⟩
    have := congrArg List.reverse hr
    simpa using this
  · rintro ⟨pre, hp, he⟩
    have : path.toList.reverse = e.reverse ++ '.' :: pre.reverse := by
      rw [hp]; simp
    rw [this, extScan_of_clean e pre.reverse [] he]
    simp

theorem filepathExt_shape (path : String) :
    filepathExt path = "" ∨ ∃ e, (filepathExt path).toList = '.' :: e := by
  by_cases h : extScan path.toList.reverse [] = []
  · left
    unfold filepathExt
    rw [h]
  · right
    obtain ⟨e, rest, _, _, hres⟩ := extScan_eq_cons path.toList.reverse [] _ rfl h
    exact ⟨e ++ [], by unfold filepathExt; simpa using hres⟩

theorem isPHPExtension_iff (env : LintEnv) (name : String) :
    isPHPExtension env name = true ↔
      ∃ ext ∈ env.PHPExtensions, (filepathExt name).toList = '.' :: ext.toList := by
  unfold isPHPExtension
  rcases filepathExt_shape name with h | ⟨e, h⟩
  · simp only [h, if_true]
    constructor
    · intro hf; simp at hf
    · rintro ⟨ext, _, hext⟩
      simp at hext
  · have hne : filepathExt name ≠ "" := by
      intro h0
      rw [h0] at h
      simp at h
    simp only [hne, if_false, List.any_eq_true, decide_eq_true_eq, h, List.drop_succ_cons,
      List.drop_zero]
    constructor
    · rintro ⟨ext, hmem, heq⟩
      refine ⟨ext, hmem, ?_⟩
      rw [← heq]; rfl
    · rintro ⟨ext, hmem, heq⟩
      refine ⟨ext, hmem, ?_⟩
      simp only [List.cons.injEq, true_and] at heq
      rw [heq]; rfl

theorem isPHPExtensionBytes_iff (env : LintEnv) (name : List Char) :
    isPHPExtensionBytes name (makePHPExtensionSuffixes env) = true ↔
      ∃ ext ∈ env.PHPExtensions, ∃ pre, name = pre ++ '.' :: ext.toList := by
  unfold isPHPExtensionBytes makePHPExtensionSuffixes bytesHasSuffix
  simp only [List.any_eq_true, List.mem_map, List.isSuffixOf_iff_suffix]
  constructor
  · rintro ⟨suffix, ⟨ext, hmem, rfl⟩, pre, hpre⟩
    exact ⟨ext, hmem, pre, by rw [← hpre]; rfl⟩
  · rintro ⟨ext, hmem, pre, hpre⟩
    exact ⟨_, ⟨ext, hmem, rfl⟩, pre, by rw [hpre]; rfl⟩

/-- C17: the two tests of a PHP extension agree. When no listed extension
holds a `.` or a path separator, `isPHPExtension` gives for every file name
what `isPHPExtensionBytes` gives for the bytes of the name and the suffixes
of `makePHPExtensionSuffixes`, which are `"." + ext` for each listed
extension, in order; a name in which `filepath.Ext` finds no extension is
rejected by both. -/
theorem isPHPExtension_eq_bytes (env : LintEnv) (name : String)
    (hclean : ∀ ext ∈ env.PHPExtensions, ∀ c ∈ ext.toList, c ≠ '.' ∧ c ≠ '/') :
    isPHPExtension env name = isPHPExtensionBytes name.toList (makePHPExtensionSuffixes env) ∧
    makePHPExtensionSuffixes env = env.PHPExtensions.map (fun ext => '.' :: ext.toList) ∧
    (filepathExt name = "" →
      isPHPExtension env name = false ∧
      isPHPExtensionBytes name.toList (makePHPExtensionSuffixes env) = false) := by
  have heq : isPHPExtension env name
      = isPHPExtensionBytes name.toList (makePHPExtensionSuffixes env) := by
    rw [Bool.eq_iff_iff, isPHPExtension_iff, isPHPExtensionBytes_iff]
    constructor
    · rintro ⟨ext, hmem, hext⟩
      obtain ⟨pre, hpre, _⟩ := (filepathExt_eq name ext.toList).mp hext
      exact ⟨ext, hmem, pre, hpre⟩
    · rintro ⟨ext, hmem, pre, hpre⟩
      exact ⟨ext, hmem, (filepathExt_eq name ext.toList).mpr ⟨pre, hpre, hclean ext hmem⟩⟩
  refine ⟨heq, rfl, ?_⟩
  intro hnone
  have : isPHPExtension env name = false := by simp [isPHPExtension, hnone]
  exact ⟨this, by rw [← heq, this]⟩

/-- C17 with the extensions `php`, `inc`, `php5` and `phtml`: both tests
accept `/repo/lib/a.inc`; both reject `/repo/v1.2/README`, which has a
dot only in a directory name. -/
theorem isPHPExtension_eq_bytes_witness :
    (∀ ext ∈ (demoLint true).PHPExtensions, ∀ c ∈ ext.toList, c ≠ '.' ∧ c ≠ '/') ∧
    isPHPExtension (demoLint true) "/repo/lib/a.inc" = true ∧
    isPHPExtensionBytes "/repo/lib/a.inc".toList (makePHPExtensionSuffixes (demoLint true))
      = true ∧
    isPHPExtension (demoLint true) "/repo/v1.2/README"
      = isPHPExtensionBytes "/repo/v1.2/README".toList
          (makePHPExtensionSuffixes (demoLint true)) ∧
    isPHPExtension (demoLint true) "/repo/v1.2/README" = false :=
  ⟨by decide, by decide, by decide,
   (isPHPExtension_eq_bytes (demoLint true) "/repo/v1.2/README" (by decide)).1, by decide⟩

/-! ## The locations of the definition walker -/

theorem resultAfter_eq (env : Env) (d : definitionWalker) (n : Node) :
    resultAfter env d n = some (d.result ++
      if insideChecked d n then (resolvedDeclarations env d n).map locationOf else []) := by
  cases ho : insideChecked d n with
  | false =>
    simp only [Bool.false_eq_true, if_false, List.append_nil]
    unfold insideChecked at ho
    cases hc : checkedNode n with
    | none =>
      cases n <;> simp [checkedNode] at hc <;>
        simp [resultAfter, definitionWalker.EnterNode, pushScope_result]
    | some c =>
      simp only [hc, Bool.not_eq_false'] at ho
      exact resultAfter_outside env d n c hc ho
  | true =>
    simp only [if_true]
    unfold insideChecked at ho
    cases n with
    | FunctionCall pos fn args =>
      simp only [checkedNode, Bool.not_eq_true'] at ho
      cases fn with
      | Name p ps =>
        simp only [Node.GetPosition] at ho
        rw [resultAfter_FunctionCall_Name env d pos p ps args ho]
        simp only [resolvedDeclarations]
        split <;> simp
        split <;> simp
        cases env.GetFunction ("\\" ++ env.NameToString (.Name p ps)) <;> simp
      | FullyQualified p ps =>
        cases h1 : env.GetFunction (env.FullyQualifiedToString (.FullyQualified p ps)) <;>
          simp_all [resultAfter, definitionWalker.EnterNode, resolvedDeclarations,
            Node.GetPosition, pushScope_result, pushScope_position, pushScope_st]
      | _ =>
        simp_all [resultAfter, definitionWalker.EnterNode, resolvedDeclarations,
          Node.GetPosition, pushScope_result, pushScope_position, pushScope_st]
    | StaticCall pos cls call args =>
      simp only [checkedNode, Bool.not_eq_true'] at ho
      cases call with
      | Identifier ip v =>
        cases hcn : env.GetClassName (env.stateEnterNode d.st
            (.StaticCall pos cls (.Identifier ip v) args)) cls with
        | none =>
          simp_all [resultAfter, definitionWalker.EnterNode, resolvedDeclarations,
          Node.GetPosition, pushScope_result, pushScope_position, pushScope_st]
        | some cn =>
          cases h1 : env.FindMethod cn v <;>
          simp_all [resultAfter, definitionWalker.EnterNode, resolvedDeclarations,
          Node.GetPosition, pushScope_result, pushScope_position, pushScope_st]
      | _ =>
        simp_all [resultAfter, definitionWalker.EnterNode, resolvedDeclarations,
          Node.GetPosition, pushScope_result, pushScope_position, pushScope_st]
    | MethodCall pos receiver method args =>
      simp only [checkedNode, Bool.not_eq_true'] at ho
      cases method with
      | Identifier ip v =>
        simp only [Node.GetPosition] at ho
        cases hsc : (scopesEntered d (.MethodCall pos receiver (.Identifier ip v) args)).getLast? with
        | none =>
          unfold scopesEntered at hsc
          simp [resultAfter, definitionWalker.EnterNode, resolvedDeclarations, scopesEntered,
            Node.GetPosition, pushScope_result, pushScope_position, pushScope_st, ho, hsc]
        | some sc =>
          obtain ⟨types, hty⟩ := safeExprType_returns env sc (env.stateEnterNode d.st
            (.MethodCall pos receiver (.Identifier ip v) args)) receiver
          simp only [resolvedDeclarations, hsc, hty]
          unfold scopesEntered at hsc
          simp only [resultAfter, definitionWalker.EnterNode, Node.GetPosition, pushScope_result,
            pushScope_position, pushScope_st, Outcome.andThen, TypesMap.Iterate, ho, hsc, hty,
            Bool.false_eq_true, if_false]
          rw [foldl_result_of _ (fun t => (env.FindMethod t v).map (fun f => locationOf f.Pos))
            (by intro w t; split <;> simp_all)]
          simp [List.map_filterMap, Option.map_map, Function.comp_def]
      | _ =>
        simp only [resultAfter, definitionWalker.EnterNode, resolvedDeclarations,
          Node.GetPosition, pushScope_result, pushScope_position, pushScope_st] at ho ⊢
        simp only [ho, Bool.false_eq_true, if_false]
        split <;> rename_i heq <;> split at heq <;> simp_all [pushScope_result] <;>
          subst heq <;> rfl
    | PropertyFetch pos receiver property =>
      simp only [checkedNode, Bool.not_eq_true'] at ho
      cases property with
      | Identifier ip v =>
        simp only [Node.GetPosition] at ho
        cases hsc : (scopesEntered d (.PropertyFetch pos receiver (.Identifier ip v))).getLast? with
        | none =>
          unfold scopesEntered at hsc
          simp [resultAfter, definitionWalker.EnterNode, resolvedDeclarations, scopesEntered,
            Node.GetPosition, pushScope_result, pushScope_position, pushScope_st, ho, hsc]
        | some sc =>
          obtain ⟨types, hty⟩ := safeExprType_returns env sc (env.stateEnterNode d.st
            (.PropertyFetch pos receiver (.Identifier ip v))) receiver
          simp only [resolvedDeclarations, hsc, hty]
          unfold scopesEntered at hsc
          simp only [resultAfter, definitionWalker.EnterNode, Node.GetPosition, pushScope_result,
            pushScope_position, pushScope_st, Outcome.andThen, TypesMap.Iterate, ho, hsc, hty,
            Bool.false_eq_true, if_false]
          rw [foldl_result_of _ (fun t => (env.FindProperty t v).map (fun f => locationOf f.Pos))
            (by intro w t; split <;> simp_all)]
          simp [List.map_filterMap, Option.map_map, Function.comp_def]
      | _ =>
        simp only [resultAfter, definitionWalker.EnterNode, resolvedDeclarations,
          Node.GetPosition, pushScope_result, pushScope_position, pushScope_st] at ho ⊢
        simp only [ho, Bool.false_eq_true, if_false]
        split <;> rename_i heq <;> split at heq <;> simp_all [pushScope_result] <;>
          subst heq <;> rfl
    | ConstFetch pos constant =>
      simp only [checkedNode, Bool.not_eq_true'] at ho
      cases h1 : env.GetConstant (env.stateEnterNode d.st (.ConstFetch pos constant)) constant <;>
      simp_all [resultAfter, definitionWalker.EnterNode, resolvedDeclarations,
          Node.GetPosition, pushScope_result, pushScope_position, pushScope_st]
    | ClassConstFetch pos cls constantName =>
      simp only [checkedNode, Bool.not_eq_true'] at ho
      cases constantName with
      | Identifier ip v =>
        by_cases hv : v = "class" ∨ v = "CLASS"
        · simp_all [resultAfter, definitionWalker.EnterNode, resolvedDeclarations,
          Node.GetPosition, pushScope_result, pushScope_position, pushScope_st]
        · cases hcn : env.GetClassName (env.stateEnterNode d.st
              (.ClassConstFetch pos cls (.Identifier ip v))) cls with
          | none =>
            simp_all [resultAfter, definitionWalker.EnterNode, resolvedDeclarations,
          Node.GetPosition, pushScope_result, pushScope_position, pushScope_st]
          | some cn =>
            cases h1 : env.FindConstant cn v <;>
            simp_all [resultAfter, definitionWalker.EnterNode, resolvedDeclarations,
          Node.GetPosition, pushScope_result, pushScope_position, pushScope_st]
      | _ =>
        simp_all [resultAfter, definitionWalker.EnterNode, resolvedDeclarations,
          Node.GetPosition, pushScope_result, pushScope_position, pushScope_st]
    | Name pos parts =>
      simp only [checkedNode, Bool.not_eq_true'] at ho
      cases hcn : env.GetClassName (env.stateEnterNode d.st (.Name pos parts)) (.Name pos parts) with
      | none =>
        simp_all [resultAfter, definitionWalker.EnterNode, resolvedDeclarations,
          Node.GetPosition, pushScope_result, pushScope_position, pushScope_st]
      | some cn =>
        cases h1 : env.GetClassOrTrait cn <;>
        simp_all [resultAfter, definitionWalker.EnterNode, resolvedDeclarations,
          Node.GetPosition, pushScope_result, pushScope_position, pushScope_st]
    | FullyQualified pos parts =>
      simp only [checkedNode, Bool.not_eq_true'] at ho
      cases hcn : env.GetClassName (env.stateEnterNode d.st (.FullyQualified pos parts))
          (.FullyQualified pos parts) with
      | none =>
        simp_all [resultAfter, definitionWalker.EnterNode, resolvedDeclarations,
          Node.GetPosition, pushScope_result, pushScope_position, pushScope_st]
      | some cn =>
        cases h1 : env.GetClassOrTrait cn <;>
        simp_all [resultAfter, definitionWalker.EnterNode, resolvedDeclarations,
          Node.GetPosition, pushScope_result, pushScope_position, pushScope_st]
    | _ => simp [checkedNode] at ho

/-- C16: every definition location `definitionWalker.EnterNode` appends, for
every node kind, points at a resolved declaration. The call returns, the old
`result` is kept as a prefix, and the appended locations correspond one to one,
in order, to declarations the node resolves to (all of them when the query
offset lies in the checked span, none otherwise): the URI is `file://` followed
by the file name of the declaration, and the range starts and ends on the
declaration line minus one, with character offsets 0. -/
theorem EnterNode_locations_point_at_declarations (env : Env) (d : definitionWalker) (n : Node) :
    ∃ (decls : List ElementPosition) (added : List vscode.Location),
      decls = (if insideChecked d n then resolvedDeclarations env d n else []) ∧
      resultAfter env d n = some (d.result ++ added) ∧
      List.Forall₂ (fun loc Pos =>
        loc.URI = "file://" ++ Pos.Filename ∧
        loc.Range.Start.Line = Pos.Line - 1 ∧ loc.Range.End.Line = Pos.Line - 1 ∧
        loc.Range.Start.Character = 0 ∧ loc.Range.End.Character = 0) added decls := by
  refine ⟨_, (if insideChecked d n then resolvedDeclarations env d n else []).map locationOf,
    rfl, ?_, ?_⟩
  · rw [resultAfter_eq]
    split <;> simp_all
  · rw [List.forall₂_map_left_iff]
    exact List.forall₂_same.mpr fun Pos _ => ⟨rfl, rfl, rfl, rfl, rfl⟩

/-- On the example method call the walker appends the location of the one
declaration of the method. -/
theorem EnterNode_locations_example :
    insideChecked (demoWalker 7) demoMethodCall = true ∧
    resolvedDeclarations demoEnv (demoWalker 7) demoMethodCall ≠ [] ∧
    resultAfter demoEnv (demoWalker 7) demoMethodCall =
      some ((demoWalker 7).result ++
        (resolvedDeclarations demoEnv (demoWalker 7) demoMethodCall).map locationOf) := by
  refine ⟨by decide, by decide, ?_⟩
  rw [resultAfter_eq]
  simp [show insideChecked (demoWalker 7) demoMethodCall = true by decide]

/-! ## The producers that read a commit -/

/-- The map a loop of the git producers builds from the map `m`: a name is
touched when a change that is not skipped carries it, and the ranges of those
changes are appended to its value in list order. -/
theorem foldl_changedMap (skip : Change → Prop) [DecidablePred skip] (name : Change → String)
    (ranges : Change → List LineRange) (changes : List Change) (m : ChangedMap) (f : String) :
    (changes.foldl (fun changedMap ch => if skip ch then changedMap
        else changedMap.set (name ch) (changedMap.index (name ch) ++ ranges ch)) m) f =
      if (changes.filter fun ch => ¬ skip ch ∧ name ch = f) = [] then m f
      else some (m.index f ++
        ((changes.filter fun ch => ¬ skip ch ∧ name ch = f).map ranges).flatten) := by
  induction changes generalizing m with
  | nil => simp
  | cons ch rest ih =>
    rw [List.foldl_cons, ih]
    by_cases hs : skip ch
    · simp [hs]
    · by_cases hn : name ch = f
      · subst hn
        simp only [hs, if_false, ChangedMap.set, ChangedMap.index, if_true, Option.getD_some]
        split <;> simp_all [List.filter_cons]
      · have hn1 : ¬ f = name ch := fun h => hn h.symm
        simp [hs, hn, hn1, List.filter_cons, ChangedMap.set, ChangedMap.index]

/-- The files a walk of the git producers sends: the accepted files of the
tree, in the order of the walk. -/
theorem foldl_emit (filenameFilter : List Char → Bool)
    (mk : String → Option (List UInt8) → FileInfo)
    (files : List (String × Option (List UInt8))) (r : ProducerRun) :
    files.foldl (fun r f => if filenameFilter f.1.toList then
        { r with emitted := r.emitted ++ [mk f.1 f.2] } else r) r =
      { r with emitted := r.emitted ++
          (files.filter fun f => filenameFilter f.1.toList).map fun f => mk f.1 f.2 } := by
  induction files generalizing r with
  | nil => simp
  | cons f rest ih =>
    rw [List.foldl_cons, ih]
    clear ih
    by_cases hf : filenameFilter f.1.toList <;> simp_all [List.filter_cons]

/-- The run of `ReadFilesFromGitWithChanges` when the repository opens and
the commit has a tree: the accepted files of the tree, each with the value of
the map under its name. -/
theorem ReadFilesFromGitWithChanges_emitted (env : LintEnv) (git : GitEnv)
    (repo commitSHA1 : String) (changes : List Change) (catter : Nat) (tree : String)
    (hc : git.NewCatter repo = .ok catter) (ht : git.GetTreeSHA1 catter commitSHA1 = .ok tree) :
    (ReadFilesFromGitWithChanges env git repo commitSHA1 changes).emitted =
      ((git.treeFiles catter tree).filter fun f =>
        isPHPExtensionBytes f.1.toList (makePHPExtensionSuffixes env) &&
          (newChangedMap changes).hasKey f.1).map
        fun f => { Filename := f.1, Contents := f.2,
                   LineRanges := (newChangedMap changes).index f.1 } := by
  simp only [ReadFilesFromGitWithChanges, hc, ht, catterWalk]
  rw [foldl_emit
    (fun filename => if !isPHPExtensionBytes filename (makePHPExtensionSuffixes env) then false
      else (newChangedMap changes).hasKey (String.mk filename))
    (fun filename contents =>
      (⟨filename, contents, (newChangedMap changes).index filename⟩ : FileInfo))]
  have hfil : ∀ f : String × Option (List UInt8),
      (if !isPHPExtensionBytes f.1.toList (makePHPExtensionSuffixes env) then false
        else (newChangedMap changes).hasKey (String.mk f.1.toList)) =
      (isPHPExtensionBytes f.1.toList (makePHPExtensionSuffixes env) &&
        (newChangedMap changes).hasKey f.1) := by
    intro f
    cases isPHPExtensionBytes f.1.toList (makePHPExtensionSuffixes env) <;> rfl
  simp only [hfil]
  split <;> simp

/-- The run of `ReadOldFilesFromGit` when the repository opens and the commit
has a tree: the accepted files of the tree, each with the value of the map
under its name. -/
theorem ReadOldFilesFromGit_emitted (env : LintEnv) (git : GitEnv)
    (repo commitSHA1 : String) (changes : List Change) (catter : Nat) (tree : String)
    (hc : git.NewCatter repo = .ok catter) (ht : git.GetTreeSHA1 catter commitSHA1 = .ok tree) :
    (ReadOldFilesFromGit env git repo commitSHA1 changes).emitted =
      ((git.treeFiles catter tree).filter fun f =>
        isPHPExtensionBytes f.1.toList (makePHPExtensionSuffixes env) &&
          (oldChangedMap changes).hasKey f.1).map
        fun f => { Filename := f.1, Contents := f.2,
                   LineRanges := (oldChangedMap changes).index f.1 } := by
  simp only [ReadOldFilesFromGit, hc, ht, catterWalk]
  rw [foldl_emit
    (fun filename => if !isPHPExtensionBytes filename (makePHPExtensionSuffixes env) then false
      else (oldChangedMap changes).hasKey (String.mk filename))
    (fun filename contents =>
      (⟨filename, contents, (oldChangedMap changes).index filename⟩ : FileInfo))]
  have hfil : ∀ f : String × Option (List UInt8),
      (if !isPHPExtensionBytes f.1.toList (makePHPExtensionSuffixes env) then false
        else (oldChangedMap changes).hasKey (String.mk f.1.toList)) =
      (isPHPExtensionBytes f.1.toList (makePHPExtensionSuffixes env) &&
        (oldChangedMap changes).hasKey f.1) := by
    intro f
    cases isPHPExtensionBytes f.1.toList (makePHPExtensionSuffixes env) <;> rfl
  simp only [hfil]
  split <;> simp

/-- A run of a git producer that fails to open the repository or to find the
tree sends no file. -/
theorem ReadFilesFromGitWithChanges_emitted_nil (env : LintEnv) (git : GitEnv)
    (repo commitSHA1 : String) (changes : List Change)
    (h : ∀ catter tree, git.NewCatter repo = .ok catter →
      git.GetTreeSHA1 catter commitSHA1 ≠ .ok tree) :
    (ReadFilesFromGitWithChanges env git repo commitSHA1 changes).emitted = [] := by
  cases hc : git.NewCatter repo with
  | error err => simp [ReadFilesFromGitWithChanges, hc]
  | ok catter =>
    cases ht : git.GetTreeSHA1 catter commitSHA1 with
    | error err => simp [ReadFilesFromGitWithChanges, hc, ht]
    | ok tree => exact absurd ht (h catter tree hc)

/-- A run of `ReadOldFilesFromGit` that fails to open the repository or to
find the tree sends no file. -/
theorem ReadOldFilesFromGit_emitted_nil (env : LintEnv) (git : GitEnv)
    (repo commitSHA1 : String) (changes : List Change)
    (h : ∀ catter tree, git.NewCatter repo = .ok catter →
      git.GetTreeSHA1 catter commitSHA1 ≠ .ok tree) :
    (ReadOldFilesFromGit env git repo commitSHA1 changes).emitted = [] := by
  cases hc : git.NewCatter repo with
  | error err => simp [ReadOldFilesFromGit, hc]
  | ok catter =>
    cases ht : git.GetTreeSHA1 catter commitSHA1 with
    | error err => simp [ReadOldFilesFromGit, hc, ht]
    | ok tree => exact absurd ht (h catter tree hc)

/-- The keys of a map built by a loop of the git producers. -/
theorem foldl_changedMap_hasKey (skip : Change → Prop) [DecidablePred skip]
    (name : Change → String) (ranges : Change → List LineRange) (changes : List Change)
    (f : String) :
    ChangedMap.hasKey (changes.foldl (fun changedMap ch => if skip ch then changedMap
        else changedMap.set (name ch) (changedMap.index (name ch) ++ ranges ch))
        ChangedMap.empty) f = true ↔
      ∃ ch ∈ changes, ¬ skip ch ∧ name ch = f := by
  unfold ChangedMap.hasKey
  rw [foldl_changedMap]
  split
  · rename_i h
    simp only [ChangedMap.empty, Option.isSome_none, Bool.false_eq_true, false_iff]
    rintro ⟨ch, hm, hs, hn⟩
    have : ch ∈ changes.filter fun ch => ¬ skip ch ∧ name ch = f := by
      simp [List.mem_filter, hm, hs, hn]
    rw [h] at this
    simp at this
  · rename_i h
    simp only [Option.isSome_some, true_iff]
    obtain ⟨ch, hch⟩ := List.exists_mem_of_ne_nil _ h
    simp only [List.mem_filter, decide_eq_true_eq] at hch
    exact ⟨ch, hch.1, hch.2.1, hch.2.2⟩

/-- The value of a map built by a loop of the git producers. -/
theorem foldl_changedMap_index (skip : Change → Prop) [DecidablePred skip]
    (name : Change → String) (ranges : Change → List LineRange) (changes : List Change)
    (f : String) :
    ChangedMap.index (changes.foldl (fun changedMap ch => if skip ch then changedMap
        else changedMap.set (name ch) (changedMap.index (name ch) ++ ranges ch))
        ChangedMap.empty) f =
      ((changes.filter fun ch => ¬ skip ch ∧ name ch = f).map ranges).flatten := by
  have h := foldl_changedMap skip name ranges changes ChangedMap.empty f
  simp only [ChangedMap.index] at h ⊢
  rw [h]
  split
  · rename_i h0
    rw [h0]
    simp [ChangedMap.empty]
  · simp [ChangedMap.empty]

/-- Every file `ReadFilesFromGitWithChanges` sends was met by the walk of the tree
of the commit, passed both tests of the filter, and carries the value of the
map under its name. -/
theorem ReadFilesFromGitWithChanges_emitted_mem (env : LintEnv) (git : GitEnv)
    (repo commitSHA1 : String) (changes : List Change) (fi : FileInfo)
    (hfi : fi ∈ (ReadFilesFromGitWithChanges env git repo commitSHA1 changes).emitted) :
    (∃ catter tree, git.NewCatter repo = .ok catter ∧
      git.GetTreeSHA1 catter commitSHA1 = .ok tree ∧
      (fi.Filename, fi.Contents) ∈ git.treeFiles catter tree) ∧
    isPHPExtensionBytes fi.Filename.toList (makePHPExtensionSuffixes env) = true ∧
    (newChangedMap changes).hasKey fi.Filename = true ∧
    fi.LineRanges = (newChangedMap changes).index fi.Filename := by
  cases hc : git.NewCatter repo with
  | error err =>
    rw [ReadFilesFromGitWithChanges_emitted_nil env git repo commitSHA1 changes
      (fun c t h => by rw [hc] at h; cases h)] at hfi
    cases hfi
  | ok catter =>
    cases ht : git.GetTreeSHA1 catter commitSHA1 with
    | error err =>
      rw [ReadFilesFromGitWithChanges_emitted_nil env git repo commitSHA1 changes
        (fun c t h1 h2 => by rw [hc] at h1; cases h1; rw [ht] at h2; cases h2)] at hfi
      cases hfi
    | ok tree =>
      rw [ReadFilesFromGitWithChanges_emitted env git repo commitSHA1 changes catter tree hc ht] at hfi
      obtain ⟨f, hf, rfl⟩ := List.mem_map.mp hfi
      obtain ⟨hmem, hacc⟩ := List.mem_filter.mp hf
      rw [Bool.and_eq_true] at hacc
      exact ⟨⟨catter, tree, rfl, ht, hmem⟩, hacc.1, hacc.2, rfl⟩

/-- Every file `ReadOldFilesFromGit` sends was met by the walk of the tree
of the commit, passed both tests of the filter, and carries the value of the
map under its name. -/
theorem ReadOldFilesFromGit_emitted_mem (env : LintEnv) (git : GitEnv)
    (repo commitSHA1 : String) (changes : List Change) (fi : FileInfo)
    (hfi : fi ∈ (ReadOldFilesFromGit env git repo commitSHA1 changes).emitted) :
    (∃ catter tree, git.NewCatter repo = .ok catter ∧
      git.GetTreeSHA1 catter commitSHA1 = .ok tree ∧
      (fi.Filename, fi.Contents) ∈ git.treeFiles catter tree) ∧
    isPHPExtensionBytes fi.Filename.toList (makePHPExtensionSuffixes env) = true ∧
    (oldChangedMap changes).hasKey fi.Filename = true ∧
    fi.LineRanges = (oldChangedMap changes).index fi.Filename := by
  cases hc : git.NewCatter repo with
  | error err =>
    rw [ReadOldFilesFromGit_emitted_nil env git repo commitSHA1 changes
      (fun c t h => by rw [hc] at h; cases h)] at hfi
    cases hfi
  | ok catter =>
    cases ht : git.GetTreeSHA1 catter commitSHA1 with
    | error err =>
      rw [ReadOldFilesFromGit_emitted_nil env git repo commitSHA1 changes
        (fun c t h1 h2 => by rw [hc] at h1; cases h1; rw [ht] at h2; cases h2)] at hfi
      cases hfi
    | ok tree =>
      rw [ReadOldFilesFromGit_emitted env git repo commitSHA1 changes catter tree hc ht] at hfi
      obtain ⟨f, hf, rfl⟩ := List.mem_map.mp hfi
      obtain ⟨hmem, hacc⟩ := List.mem_filter.mp hf
      rw [Bool.and_eq_true] at hacc
      exact ⟨⟨catter, tree, rfl, ht, hmem⟩, hacc.1, hacc.2, rfl⟩

/-- C15: in `ReadFilesFromGitWithChanges`, for every list of changes, a file
name is a key of the changed-file map exactly when some change that is not a
deletion has it as `NewName`; every file sent carries the concatenation, in
list order, of the `LineRanges` of exactly those changes, has a PHP extension
suffix, is a key of the map and was met by the walk of the tree; and when the
repository opens and the commit has a tree, the files sent are the files of
the tree that pass both tests, in the order of the walk.
`ReadOldFilesFromGit` does the same with the changes that are not additions,
`OldName` and `OldLineRanges`. -/
theorem ReadFilesFromGit_changed_ranges (env : LintEnv) (git : GitEnv)
    (repo commitSHA1 : String) (changes : List Change) :
    ((∀ f, (newChangedMap changes).hasKey f = true ↔
        ∃ ch ∈ changes, ch.Typ ≠ ChangeType.Deleted ∧ ch.NewName = f) ∧
     (∀ fi ∈ (ReadFilesFromGitWithChanges env git repo commitSHA1 changes).emitted,
        fi.LineRanges =
          ((changes.filter fun ch => ch.Typ ≠ ChangeType.Deleted ∧ ch.NewName = fi.Filename).map
            fun ch => ch.LineRanges).flatten ∧
        isPHPExtensionBytes fi.Filename.toList (makePHPExtensionSuffixes env) = true ∧
        (newChangedMap changes).hasKey fi.Filename = true ∧
        ∃ catter tree, git.NewCatter repo = .ok catter ∧
          git.GetTreeSHA1 catter commitSHA1 = .ok tree ∧
          (fi.Filename, fi.Contents) ∈ git.treeFiles catter tree) ∧
     (∀ catter tree, git.NewCatter repo = .ok catter →
        git.GetTreeSHA1 catter commitSHA1 = .ok tree →
        (ReadFilesFromGitWithChanges env git repo commitSHA1 changes).emitted =
          ((git.treeFiles catter tree).filter fun f =>
            isPHPExtensionBytes f.1.toList (makePHPExtensionSuffixes env) &&
              (newChangedMap changes).hasKey f.1).map
            fun f => { Filename := f.1, Contents := f.2,
                       LineRanges :=
                         ((changes.filter fun ch =>
                            ch.Typ ≠ ChangeType.Deleted ∧ ch.NewName = f.1).map
                           fun ch => ch.LineRanges).flatten })) ∧
    ((∀ f, (oldChangedMap changes).hasKey f = true ↔
        ∃ ch ∈ changes, ch.Typ ≠ ChangeType.Added ∧ ch.OldName = f) ∧
     (∀ fi ∈ (ReadOldFilesFromGit env git repo commitSHA1 changes).emitted,
        fi.LineRanges =
          ((changes.filter fun ch => ch.Typ ≠ ChangeType.Added ∧ ch.OldName = fi.Filename).map
            fun ch => ch.OldLineRanges).flatten ∧
        isPHPExtensionBytes fi.Filename.toList (makePHPExtensionSuffixes env) = true ∧
        (oldChangedMap changes).hasKey fi.Filename = true ∧
        ∃ catter tree, git.NewCatter repo = .ok catter ∧
          git.GetTreeSHA1 catter commitSHA1 = .ok tree ∧
          (fi.Filename, fi.Contents) ∈ git.treeFiles catter tree) ∧
     (∀ catter tree, git.NewCatter repo = .ok catter →
        git.GetTreeSHA1 catter commitSHA1 = .ok tree →
        (ReadOldFilesFromGit env git repo commitSHA1 changes).emitted =
          ((git.treeFiles catter tree).filter fun f =>
            isPHPExtensionBytes f.1.toList (makePHPExtensionSuffixes env) &&
              (oldChangedMap changes).hasKey f.1).map
            fun f => { Filename := f.1, Contents := f.2,
                       LineRanges :=
                         ((changes.filter fun ch =>
                            ch.Typ ≠ ChangeType.Added ∧ ch.OldName = f.1).map
                           fun ch => ch.OldLineRanges).flatten })) := by
  have hkN := foldl_changedMap_hasKey (fun ch => ch.Typ = ChangeType.Deleted)
    (fun ch => ch.NewName) (fun ch => ch.LineRanges) changes
  have hiN := foldl_changedMap_index (fun ch => ch.Typ = ChangeType.Deleted)
    (fun ch => ch.NewName) (fun ch => ch.LineRanges) changes
  have hkO := foldl_changedMap_hasKey (fun ch => ch.Typ = ChangeType.Added)
    (fun ch => ch.OldName) (fun ch => ch.OldLineRanges) changes
  have hiO := foldl_changedMap_index (fun ch => ch.Typ = ChangeType.Added)
    (fun ch => ch.OldName) (fun ch => ch.OldLineRanges) changes
  refine ⟨⟨fun f => hkN f, ?_, ?_⟩, ⟨fun f => hkO f, ?_, ?_⟩⟩
  · intro fi hfi
    obtain ⟨hex, hphp, hkey, hr⟩ :=
      ReadFilesFromGitWithChanges_emitted_mem env git repo commitSHA1 changes fi hfi
    exact ⟨hr.trans (hiN fi.Filename), hphp, hkey, hex⟩
  · intro catter tree hc ht
    rw [ReadFilesFromGitWithChanges_emitted env git repo commitSHA1 changes catter tree hc ht]
    exact List.map_congr_left fun f _ => by
      show FileInfo.mk _ _ _ = FileInfo.mk _ _ _
      rw [show (newChangedMap changes).index f.1 = _ from hiN f.1]
  · intro fi hfi
    obtain ⟨hex, hphp, hkey, hr⟩ :=
      ReadOldFilesFromGit_emitted_mem env git repo commitSHA1 changes fi hfi
    exact ⟨hr.trans (hiO fi.Filename), hphp, hkey, hex⟩
  · intro catter tree hc ht
    rw [ReadOldFilesFromGit_emitted env git repo commitSHA1 changes catter tree hc ht]
    exact List.map_congr_left fun f _ => by
      show FileInfo.mk _ _ _ = FileInfo.mk _ _ _
      rw [show (oldChangedMap changes).index f.1 = _ from hiO f.1]

/-- On the example commit `ReadFilesFromGitWithChanges` sends `src/a.php` with
the ranges of its two changes in list order, and nothing else: `README.md`
has no PHP extension, `src/b.php` is not changed and `src/old.php` is deleted.
`ReadOldFilesFromGit` sends `src/a.php` with the old ranges of its one change
under that old name, and `src/old.php`. -/
theorem ReadFilesFromGit_example :
    (ReadFilesFromGitWithChanges (demoLint true) demoGit "/repo" "c0ffee" demoGitChanges).emitted =
      [{ Filename := "src/a.php", Contents := some [60, 63],
         LineRanges := [⟨1, 3⟩, ⟨10, 12⟩, ⟨20, 20⟩] }] ∧
    (ReadOldFilesFromGit (demoLint true) demoGit "/repo" "c0ffee" demoGitChanges).emitted =
      [{ Filename := "src/a.php", Contents := some [60, 63], LineRanges := [⟨1, 2⟩] },
       { Filename := "src/old.php", Contents := some [], LineRanges := [⟨1, 9⟩] }] ∧
    (ReadFilesFromGitWithChanges (demoLint true) demoGit "/nowhere" "c0ffee" demoGitChanges).exited =
      true := by
  refine ⟨?_, ?_, ?_⟩ <;> decide

end Noverify
